import Mathlib

/-- Lookup in an insertion-ordered dict (`d[k]` / `d.get(k)`). -/
def dictGet {β : Type} (l : List (String × β)) (k : String) : Option β :=
  (l.find? (fun p => p.1 == k)).map (fun p => p.2)

/-- Lookup with default (`d.get(k, dflt)`). -/
def dictGetD {β : Type} (l : List (String × β)) (k : String) (dflt : β) : β :=
  (dictGet l k).getD dflt

/-- Membership test (`k in d`). -/
def dictHas {β : Type} (l : List (String × β)) (k : String) : Bool :=
  l.any (fun p => p.1 == k)

/-- Assignment `d[k] = v`: replace in place if the key is present
(Python dicts keep the key's original position), else append. -/
def dictSet {β : Type} (l : List (String × β)) (k : String) (v : β) :
    List (String × β) :=
  if dictHas l k then l.map (fun p => if p.1 == k then (k, v) else p)
  else l ++ [(k, v)]

/-- Deletion `del d[k]`. -/
def dictDel {β : Type} (l : List (String × β)) (k : String) :
    List (String × β) :=
  l.filter (fun p => p.1 != k)

/-- `deque(maxlen=m).append(x)`: append on the right, dropping from the
left whatever exceeds the bound. -/
def dequeAppend (maxlen : Nat) (l : List ℚ) (x : ℚ) : List ℚ :=
  let l2 := l ++ [x]
  l2.drop (l2.length - maxlen)

/-- The three priority lanes of `self.queues`. -/
inductive Priority where
  | high
  | normal
  | low
deriving DecidableEq, Repr

/-- The `status` field of a request dict. -/
inductive ReqStatus where
  | pending
  | cached
  | completed
  | failed
deriving DecidableEq, Repr

/-- The `request_data` dict built by `add_request`.  `func n` is the
outcome of the `n`-th invocation of the caller-supplied callable and
`dur n` its wall-clock duration. -/
structure Request where
  id : String
  func : Nat → Except String Int
  dur : Nat → ℚ
  priority : Priority
  cache_key : Option String
  ttl : ℚ
  timestamp : ℚ
  status : ReqStatus
  attempts : Nat

/-- The `self.stats` dict (mutable counters plus the bounded
`queue_times` ring used for the running average). -/
structure Stats where
  total_requests : Nat
  completed_requests : Nat
  cached_responses : Nat
  failed_requests : Nat
  rate_limit_hits : Nat
  avg_response_time : ℚ
  queue_times : List ℚ
deriving Repr

/-- State of a `SmartRequestQueueManager`, with the model clock `now`
and the ghost event logs. -/
structure Manager where
  max_requests_per_minute : Nat
  request_interval : ℚ
  high : List Request
  normal : List Request
  low : List Request
  cache : List (String × Int)
  cache_ttl : List (String × ℚ)
  stats : Stats
  request_history : List ℚ
  now : ℚ
  callLog : List ℚ
  invokeLog : List (String × ℚ)
  sleepLog : List ℚ

/-- `__init__(max_requests_per_minute, request_interval)` starting at
wall-clock instant `t0`. -/
def initManager (maxReq : Nat) (interval : ℚ) (t0 : ℚ) : Manager where
  max_requests_per_minute := maxReq
  request_interval := interval
  high := []
  normal := []
  low := []
  cache := []
  cache_ttl := []
  stats :=
    { total_requests := 0, completed_requests := 0, cached_responses := 0
      failed_requests := 0, rate_limit_hits := 0, avg_response_time := 0
      queue_times := [] }
  request_history := []
  now := t0
  callLog := []
  invokeLog := []
  sleepLog := []

/-- Read one lane of `self.queues`. -/
def Manager.lane (s : Manager) : Priority → List Request
  | .high => s.high
  | .normal => s.normal
  | .low => s.low

/-- Write one lane of `self.queues`. -/
def Manager.setLane (s : Manager) : Priority → List Request → Manager
  | .high, l => { s with high := l }
  | .normal, l => { s with normal := l }
  | .low, l => { s with low := l }

/-- `add_request`: build the request dict, append it to the lane of its
priority, and bump `total_requests`. -/
def add_request (s : Manager) (request_id : String)
    (request_func : Nat → Except String Int) (request_dur : Nat → ℚ)
    (priority : Priority) (cache_key : Option String) (ttl : ℚ) : Manager :=
  let r : Request :=
    { id := request_id, func := request_func, dur := request_dur
      priority := priority, cache_key := cache_key, ttl := ttl
      timestamp := s.now, status := .pending, attempts := 0 }
  let s1 := s.setLane priority (s.lane priority ++ [r])
  { s1 with stats := { s1.stats with total_requests := s1.stats.total_requests + 1 } }

/-- `get_from_cache`: TTL-checked lookup.  Returns the Python return
value together with the post-state (the call mutates the cache-hit
counter on a hit and deletes the entry on expiry). -/
def get_from_cache (s : Manager) (cache_key : String) : Option Int × Manager :=
  if dictHas s.cache cache_key then
    let cache_time := dictGetD s.cache_ttl cache_key 0
    if s.now - cache_time < dictGetD s.cache_ttl (cache_key ++ "_ttl") 300 then
      (dictGet s.cache cache_key,
        { s with stats :=
            { s.stats with cached_responses := s.stats.cached_responses + 1 } })
    else
      (none,
        { s with
            cache := dictDel s.cache cache_key
            cache_ttl :=
              dictDel (dictDel s.cache_ttl cache_key) (cache_key ++ "_ttl") })
  else (none, s)

/-- `set_cache`: store the value, its store instant, and its TTL (the
latter under the derived key `cache_key + "_ttl"` in the same dict). -/
def set_cache (s : Manager) (cache_key : String) (value : Int) (ttl : ℚ) :
    Manager :=
  { s with
      cache := dictSet s.cache cache_key value
      cache_ttl := dictSet (dictSet s.cache_ttl cache_key s.now)
        (cache_key ++ "_ttl") ttl }

/-- `_get_next_request`: pop the head of the first non-empty lane in
the order high, normal, low. -/
def get_next_request (s : Manager) : Option Request × Manager :=
  match s.high with
  | r :: rest => (some r, { s with high := rest })
  | [] =>
    match s.normal with
    | r :: rest => (some r, { s with normal := rest })
    | [] =>
      match s.low with
      | r :: rest => (some r, { s with low := rest })
      | [] => (none, s)

/-- The pruning loop shared by `_can_make_request` and `get_status`:
drop leading history entries older than 60 seconds. -/
def pruneHistory (now : ℚ) : List ℚ → List ℚ
  | [] => []
  | t :: rest => if now - t > 60 then pruneHistory now rest else t :: rest

/-- `_can_make_request`: prune, then compare the history length with
the per-minute ceiling.  The pruning mutates the shared deque. -/
def can_make_request (s : Manager) : Bool × Manager :=
  let h := pruneHistory s.now s.request_history
  (decide (h.length < s.max_requests_per_minute), { s with request_history := h })

/-- `_calculate_wait_time`. -/
def calculate_wait_time (s : Manager) : ℚ :=
  match s.request_history with
  | [] => 0
  | oldest :: _ => max 0 (60 - (s.now - oldest) + 1 / 10)

/-- `get_queue_size`. -/
def get_queue_size (s : Manager) : Nat :=
  s.high.length + s.normal.length + s.low.length

/-- `get_status()` snapshot structure. -/
structure StatusReport where
  queues_high : Nat
  queues_normal : Nat
  queues_low : Nat
  total_pending : Nat
  completed : Nat
  failed : Nat
  cached : Nat
  rate_limit_hits : Nat
  requests_last_minute : Nat
  cache_size : Nat
  avg_response_time : ℚ
  efficiency : ℚ
deriving Repr

/-- `get_status`: prune the history, then report the snapshot.  The
pruning mutates the shared deque, so the post-state is returned too. -/
def get_status (s : Manager) : StatusReport × Manager :=
  let h := pruneHistory s.now s.request_history
  let s1 := { s with request_history := h }
  ({ queues_high := s.high.length
     queues_normal := s.normal.length
     queues_low := s.low.length
     total_pending := get_queue_size s
     completed := s.stats.completed_requests
     failed := s.stats.failed_requests
     cached := s.stats.cached_responses
     rate_limit_hits := s.stats.rate_limit_hits
     requests_last_minute := h.length
     cache_size := s.cache.length
     avg_response_time := s.stats.avg_response_time
     efficiency := ((s.stats.cached_responses : ℚ) /
       (max 1 s.stats.total_requests : Nat)) * 100 }, s1)

/-- The dedup key `f"{request['id']}_{request.get('cache_key', '')}"`:
the stored `cache_key` is `None` or a string, and Python renders `None`
as the text `"None"` inside an f-string. -/
def compositeKey (r : Request) : String :=
  r.id ++ "_" ++ (match r.cache_key with | none => "None" | some ck => ck)

/-- The ordered-dict build of `optimize_queues` for one lane: assigning
`unique_requests[request_key] = request` keeps the key at its first
position but stores the last-assigned value; `.values()` then lists the
surviving requests in that key order. -/
def dedupLane (l : List Request) : List Request :=
  (l.foldl (fun d r => dictSet d (compositeKey r) r) []).map (fun p => p.2)

/-- `optimize_queues`: deduplicate every lane. -/
def optimize_queues (s : Manager) : Manager :=
  { s with high := dedupLane s.high, normal := dedupLane s.normal
           low := dedupLane s.low }

/-- One execution of a dequeued request past the cache check: the
rate-limit gate (with its `time.sleep`), the invocation of
`request['func']`, and the success/failure bookkeeping of
`process_batch`.  Returns the new state, the value stored into
`results[request['id']]`, and whether `processed` is incremented. -/
def runRequest (s : Manager) (r : Request) :
    Manager × Except String Int × Bool :=
  let carved := can_make_request s
  let s1 := carved.2
  let s2 :=
    if carved.1 then s1
    else
      let w := calculate_wait_time s1
      { s1 with now := s1.now + w, sleepLog := s1.sleepLog ++ [w] }
  let startT := s2.now
  let d := r.dur r.attempts
  let s3 := { s2 with now := s2.now + d
                      invokeLog := s2.invokeLog ++ [(r.id, startT)] }
  match r.func r.attempts with
  | .ok v =>
    let qt := dequeAppend 100 s3.stats.queue_times d
    let s4 := { s3 with stats :=
      { s3.stats with queue_times := qt
                      avg_response_time := qt.sum / (qt.length : ℚ) } }
    let s5 :=
      match r.cache_key with
      | some ck => set_cache s4 ck v r.ttl
      | none => s4
    let s6 := { s5 with stats :=
      { s5.stats with completed_requests := s5.stats.completed_requests + 1 } }
    let s7 := { s6 with
      request_history :=
        dequeAppend s6.max_requests_per_minute s6.request_history s6.now
      callLog := s6.callLog ++ [s6.now] }
    (s7, .ok v, true)
  | .error e =>
    let r1 := { r with status := .failed, attempts := r.attempts + 1 }
    let s4 := { s3 with stats :=
      { s3.stats with failed_requests := s3.stats.failed_requests + 1 } }
    let s5 := if r1.attempts < 3 then { s4 with low := r1 :: s4.low } else s4
    (s5, .error e, false)

/-- The body of one `while` iteration of `process_batch` after the
loop condition: dequeue (`None` means the loop breaks), then either
serve from cache or execute.  Returns the updated state, results and
processed count. -/
def batchStep (s : Manager) (results : List (String × Except String Int))
    (processed : Nat) :
    Option (Manager × List (String × Except String Int) × Nat) :=
  match get_next_request s with
  | (none, _) => none
  | (some r, s1) =>
    match r.cache_key with
    | some ck =>
      match get_from_cache s1 ck with
      | (some v, s2) =>
        some (s2, dictSet results r.id (Except.ok v), processed + 1)
      | (none, s2) =>
        let step := runRequest s2 r
        some (step.1, dictSet results r.id step.2.1,
          if step.2.2 then processed + 1 else processed)
    | none =>
      let step := runRequest s1 r
      some (step.1, dictSet results r.id step.2.1,
        if step.2.2 then processed + 1 else processed)

/-- The `while` loop of `process_batch`, with an explicit fuel (the
loop terminates because every iteration pops a request, and a request
is requeued only with a strictly larger `attempts` below 3). -/
def batchLoop (batch_size : Nat) (timeout start_time : ℚ) :
    Nat → Manager → List (String × Except String Int) → Nat →
    Manager × List (String × Except String Int) × Nat
  | 0, s, results, processed => (s, results, processed)
  | fuel + 1, s, results, processed =>
    if processed < batch_size ∧ s.now - start_time < timeout then
      match batchStep s results processed with
      | none => (s, results, processed)
      | some (s1, res1, p1) =>
        batchLoop batch_size timeout start_time fuel s1 res1 p1
    else (s, results, processed)

/-- Fuel sufficient for `batchLoop` to run to completion: every
iteration that recurses strictly decreases the measure
`Σ (4 - min attempts 3)` over the queued requests, which is at most
`4 * get_queue_size`. -/
def batchFuel (s : Manager) : Nat :=
  4 * get_queue_size s + 1

/-- `process_batch(batch_size, timeout)`: run the loop and return the
post-state together with `results`, `processed` and `remaining`. -/
def process_batch (s : Manager) (batch_size : Nat) (timeout : ℚ) :
    Manager × List (String × Except String Int) × Nat × Nat :=
  let start_time := s.now
  let out := batchLoop batch_size timeout start_time (batchFuel s) s [] 0
  (out.1, out.2.1, out.2.2, get_queue_size out.1)

/-- External usage of the manager: submissions, batch runs, status
reads, queue optimization, direct cache calls, and wall-clock time
passing between calls. -/
inductive Op where
  | add (id : String) (f : Nat → Except String Int) (d : Nat → ℚ)
      (priority : Priority) (ck : Option String) (ttl : ℚ)
  | batch (batch_size : Nat) (timeout : ℚ)
  | advance (dt : ℚ)
  | cset (k : String) (v : Int) (ttl : ℚ)
  | cget (k : String)
  | status
  | optimize

/-- Apply one external operation to the state. -/
def applyOp (s : Manager) : Op → Manager
  | .add id f d priority ck ttl => add_request s id f d priority ck ttl
  | .batch bs t => (process_batch s bs t).1
  | .advance dt => { s with now := s.now + dt }
  | .cset k v ttl => set_cache s k v ttl
  | .cget k => (get_from_cache s k).2
  | .status => (get_status s).2
  | .optimize => optimize_queues s

/-- Apply a sequence of external operations. -/
def runOps (s : Manager) (ops : List Op) : Manager :=
  ops.foldl applyOp s

/-- A sample request used to instantiate theorems at concrete inputs. -/
def reqA : Request :=
  { id := "a", func := fun _ => .ok 0, dur := fun _ => 0, priority := .normal
    cache_key := none, ttl := 300, timestamp := 0, status := .pending
    attempts := 0 }

/-- A concrete manager whose normal lane holds one request. -/
def mC4 : Manager := { initManager 45 (3 / 2) 0 with normal := [reqA] }

/-- A reachable state with one cached response out of one total
request: a value is pre-cached under `"k"`, and a submitted request
with `cache_key="k"` is then served from the cache. -/
def sC8 : Manager :=
  (process_batch
    (add_request (set_cache (initManager 45 (3 / 2) 0) "k" 5 300)
      "a" (fun _ => .ok 1) (fun _ => 0) .high (some "k") 300)
    10 30).1

/-- A manager with `max_requests_per_minute = 1` and two submitted
requests that succeed immediately: processing the second one is denied
by the rate limiter and blocks for the computed wait time. -/
def sRL : Manager :=
  add_request
    (add_request (initManager 1 (3 / 2) 0) "a" (fun _ => .ok 1) (fun _ => 0)
      .high none 300)
    "b" (fun _ => .ok 2) (fun _ => 0) .high none 300

/-- Store `1` under `"a"` with TTL 10 at instant 100, let the TTL and a
further `D` seconds elapse, then store under the colliding key
`"a_ttl"`: this overwrites the recorded TTL of `"a"` with the current
timestamp. -/
def c9setup (D : ℚ) : Manager :=
  let s0 := initManager 45 (3 / 2) 100
  let s1 := set_cache s0 "a" 1 10
  let s2 := { s1 with now := s1.now + (10 + D) }
  set_cache s2 "a_ttl" 0 5

/-- The ordered dict of `optimize_queues` for one lane. -/
def buildDict (l : List Request) : List (String × Request) :=
  l.foldl (fun d r => dictSet d (compositeKey r) r) []

/-- Invariant of the ordered dict: every entry is keyed by the
composite key of its value, and keys are distinct. -/
def GoodDict (d : List (String × Request)) : Prop :=
  (∀ p ∈ d, compositeKey p.2 = p.1) ∧ (d.map (fun p => p.1)).Nodup

def reqX1 : Request :=
  { id := "a_b", func := fun _ => .ok 1, dur := fun _ => 0, priority := .high
    cache_key := some "c", ttl := 300, timestamp := 0, status := .pending
    attempts := 0 }

def reqX2 : Request := { reqX1 with timestamp := 1 }

def reqY : Request :=
  { reqX1 with id := "a", cache_key := some "b_c", timestamp := 2 }

def mC6 : Manager := { initManager 45 (3 / 2) 0 with high := [reqX1, reqX2, reqY] }

/-- No request with the given id sits in any lane. -/
def IdAbsent (id : String) (s : Manager) : Prop :=
  (∀ r ∈ s.high, r.id ≠ id) ∧ (∀ r ∈ s.normal, r.id ≠ id) ∧
  (∀ r ∈ s.low, r.id ≠ id)

/-- Number of invocations of the given id recorded in the ghost log. -/
def invCount (id : String) (s : Manager) : Nat :=
  s.invokeLog.countP (fun q => q.1 == id)

/-- The external operation is not a submission of the given id. -/
def OpNoAdd (id : String) : Op → Prop
  | .add id2 _ _ _ _ _ => id2 ≠ id
  | _ => True

/-- Post-state and results of one `process_batch(10, 30)` on a fresh
default manager holding a single submitted request. -/
def c3out (id : String) (f : Nat → Except String Int) (ttl : ℚ)
    (p : Priority) :
    Manager × List (String × Except String Int) × Nat × Nat :=
  process_batch (add_request (initManager 45 (3 / 2) 0) id f (fun _ => 0)
    p none ttl) 10 30

def sC5 : Manager :=
  add_request (initManager 45 (3 / 2) 0) "a" (fun _ => .error "x")
    (fun _ => 40) .high none 300

def sFail : Manager :=
  add_request (initManager 45 (3 / 2) 0) "a" (fun _ => .error "x")
    (fun _ => 0) .high none 300

def rC5 : Request :=
  { id := "b", func := fun _ => Except.error "y", dur := fun _ => 0
    priority := .high, cache_key := none, ttl := 300, timestamp := 0
    status := .pending, attempts := 0 }

def mC5 : Manager := { initManager 45 (3 / 2) 0 with high := [rC5] }

/-- Conditions under which an intervening cache operation leaves the
bookkeeping of key `k` intact: a `set_cache` must avoid `k`, the
derived key `k ++ "_ttl"`, and any key whose derived key is `k`; a
`get_from_cache` may target `k` itself or any key clear of those; time
only moves forward.  Operations other than direct cache calls and time
passing are excluded. -/
def CacheOpSafe (k : String) : Op → Prop
  | .cset k2 _ _ => k2 ≠ k ∧ k2 ≠ k ++ "_ttl" ∧ k2 ++ "_ttl" ≠ k
  | .cget k2 => k2 = k ∨ (k2 ≠ k ∧ k2 ≠ k ++ "_ttl" ∧ k2 ++ "_ttl" ≠ k)
  | .advance dt => 0 ≤ dt
  | _ => False

/-- Either key `k` still carries the stored value with its original
store instant and TTL, or its entry is gone and the TTL has already
elapsed. -/
def CacheInv (k : String) (v : Int) (setTime ttl : ℚ) (s : Manager) : Prop :=
  (dictGet s.cache k = some v ∧ dictGet s.cache_ttl k = some setTime ∧
    dictGet s.cache_ttl (k ++ "_ttl") = some ttl) ∨
  (dictHas s.cache k = false ∧ setTime + ttl ≤ s.now)

/-- Number of calls in `log` that lie in the trailing 60-second window
ending at instant `t`. -/
def windowCount (log : List ℚ) (t : ℚ) : Nat :=
  log.countP (fun x => decide (x ≤ t) && decide (t - x ≤ 60))

/-- Rate-limiter invariant: the pruned history is a suffix of the
ghost log of recorded calls, everything pruned away is already more
than 60 seconds old, the history respects the deque bound, all
recorded calls lie in the past, and at every recorded instant the
trailing 60-second window holds at most `max_requests_per_minute`
recorded calls. -/
def RLInv (s : Manager) : Prop :=
  (∃ pre, s.callLog = pre ++ s.request_history ∧
    ∀ x ∈ pre, 60 < s.now - x) ∧
  s.request_history.length ≤ s.max_requests_per_minute ∧
  (∀ x ∈ s.callLog, x ≤ s.now) ∧
  (∀ t ∈ s.callLog, windowCount s.callLog t ≤ s.max_requests_per_minute)

/-- Every request sitting in a lane has nonnegative invocation
durations (true of all states built by well-formed submissions). -/
def QInv (s : Manager) : Prop :=
  (∀ r ∈ s.high, ∀ n, 0 ≤ r.dur n) ∧ (∀ r ∈ s.normal, ∀ n, 0 ≤ r.dur n) ∧
  (∀ r ∈ s.low, ∀ n, 0 ≤ r.dur n)

/-- Well-formed external operation: submitted operations have
nonnegative durations and time only advances forward. -/
def OpWF : Op → Prop
  | .add _ _ d _ _ _ => ∀ n, 0 ≤ d n
  | .advance dt => 0 ≤ dt
  | _ => True

/-- A manager with ceiling 1 holding a single always-failing request:
its three invocations are all network calls that the rate limiter
never counts. -/
def sFail1 : Manager :=
  add_request (initManager 1 (3 / 2) 0) "a" (fun _ => .error "x")
    (fun _ => 0) .high none 300

/-! ## Theorems -/

/-!
Shallow embedding of `src/analysis/queue_manager.py` (class
`SmartRequestQueueManager`).  Python dicts are modelled as
insertion-ordered association lists, `collections.deque` with `maxlen`
as a list with a bounded append, and wall-clock time as an explicit
rational field `now` of the state.  A caller-supplied request function
is modelled as a map from the invocation index (the value of
`attempts` at invocation time) to an `Except String Int` outcome,
together with a map giving the wall-clock duration of each invocation.
Ghost fields (`callLog`, `invokeLog`, `sleepLog`) record observable
events without influencing the behaviour of the embedded code.
-/

/-! ### Claim C4: strict-priority FIFO dequeue -/

/-- Claim C4: `_get_next_request` returns the head of the high lane
when it is non-empty, else the head of the normal lane, else the head
of the low lane, and returns `None` exactly when all three lanes are
empty. -/
theorem c4_dequeue_priority (s : Manager) :
    (∀ r t, s.high = r :: t →
      get_next_request s = (some r, { s with high := t })) ∧
    (∀ r t, s.high = [] → s.normal = r :: t →
      get_next_request s = (some r, { s with normal := t })) ∧
    (∀ r t, s.high = [] → s.normal = [] → s.low = r :: t →
      get_next_request s = (some r, { s with low := t })) ∧
    ((get_next_request s).1 = none ↔
      s.high = [] ∧ s.normal = [] ∧ s.low = []) := by
  refine ⟨?_, ?_, ?_, ?_⟩
  · rintro r t h
    simp [get_next_request, h]
  · rintro r t h1 h2
    simp [get_next_request, h1, h2]
  · rintro r t h1 h2 h3
    simp [get_next_request, h1, h2, h3]
  · rcases hh : s.high with _ | ⟨r, t⟩ <;>
      rcases hn : s.normal with _ | ⟨r2, t2⟩ <;>
      rcases hl : s.low with _ | ⟨r3, t3⟩ <;>
      simp [get_next_request, hh, hn, hl]

/-- Witness for C4 at a concrete input. -/
theorem c4_dequeue_priority_witness :
    get_next_request mC4 = (some reqA, { mC4 with normal := [] }) :=
  (c4_dequeue_priority mC4).2.1 reqA [] rfl rfl

/-! ### Claim C8: the reported efficiency field -/

/-- Claim C8 as stated is false: at a reachable state with
`cached_responses = 1` and `total_requests = 1` the reported
`efficiency` is `100`, not the ratio `1`.  The code multiplies the
ratio by `100`. -/
theorem c8_efficiency_counterexample :
    sC8.stats.cached_responses = 1 ∧ sC8.stats.total_requests = 1 ∧
    (get_status sC8).1.efficiency ≠
      (sC8.stats.cached_responses : ℚ) /
        ((max 1 sC8.stats.total_requests : Nat) : ℚ) := by
  refine ⟨?_, ?_, ?_⟩ <;>
    norm_num +decide [sC8, process_batch, batchLoop, batchStep, batchFuel, get_queue_size,
      add_request, initManager, Manager.lane, Manager.setLane,
      get_next_request, runRequest, can_make_request, pruneHistory,
      calculate_wait_time, get_status, get_from_cache, set_cache, dictGet,
      dictGetD, dictHas, dictSet, dequeAppend]

/-- Claim C8 amended: for every state of the manager, the reported
`efficiency` equals `cachedResponses / max(1, totalRequests)` scaled by
`100` (a percentage). -/
theorem c8_efficiency_scaled (s : Manager) :
    (get_status s).1.efficiency =
      ((s.stats.cached_responses : ℚ) /
        ((max 1 s.stats.total_requests : Nat) : ℚ)) * 100 := by
  simp [get_status]

/-! ### Claim C7: the rate-limit-hit counter -/

/-- Claim C7 fails on the code: in a batch in which the rate limiter
denies proceeding exactly once and the worker blocks for 60.1 seconds,
`stats['rate_limit_hits']` remains 0 and `get_status` reports 0; the
code contains no increment of this counter anywhere. -/
theorem c7_rate_limit_hits_never_incremented :
    (process_batch sRL 10 120).1.sleepLog = [601 / 10] ∧
    (process_batch sRL 10 120).1.stats.rate_limit_hits = 0 ∧
    (get_status (process_batch sRL 10 120).1).1.rate_limit_hits = 0 := by
  refine ⟨?_, ?_, ?_⟩ <;>
    norm_num +decide [sRL, process_batch, batchLoop, batchStep, batchFuel, get_queue_size,
      add_request, initManager, Manager.lane, Manager.setLane,
      get_next_request, runRequest, can_make_request, pruneHistory,
      calculate_wait_time, get_status, get_from_cache, set_cache, dictGet,
      dictGetD, dictHas, dictSet, dequeAppend]

/-! ### Claim C9: storedAt and TTL share one dict, keyed `k` / `k_ttl` -/

/-- Claim C9: `set_cache` on the key `"a_ttl"` overwrites the recorded
TTL of `"a"` with the wall-clock timestamp `110 + D`, after which
`get_from_cache "a"` still returns the stored value although the TTL
of `"a"` elapsed `D` seconds ago, for arbitrarily large `D`. -/
theorem c9_ttl_key_collision (D : ℚ) (hD : 0 ≤ D) :
    dictGet (c9setup D).cache_ttl ("a" ++ "_ttl") = some (110 + D) ∧
    (get_from_cache (c9setup D) "a").1 = some 1 ∧
    10 + D = (c9setup D).now - 100 ∧ 10 ≤ (c9setup D).now - 100 := by
  have happ : ("a" : String) ++ "_ttl" = "a_ttl" := rfl
  have happ2 : ("a_ttl" : String) ++ "_ttl" = "a_ttl_ttl" := rfl
  refine ⟨?_, ?_, by simp [c9setup, set_cache, initManager], by
    simp only [c9setup, set_cache, initManager]; linarith⟩
  · simp [c9setup, set_cache, initManager, dictSet, dictGet, dictHas, happ,
      happ2]
    ring
  · simp [c9setup, set_cache, initManager, get_from_cache, dictSet, dictGet,
      dictGetD, dictHas, happ, happ2]

/-- Witness for C9 at `D = 1000`. -/
theorem c9_ttl_key_collision_witness :
    dictGet (c9setup 1000).cache_ttl ("a" ++ "_ttl") = some (110 + 1000) ∧
    (get_from_cache (c9setup 1000) "a").1 = some 1 ∧
    10 + 1000 = (c9setup 1000).now - 100 ∧ 10 ≤ (c9setup 1000).now - 100 :=
  c9_ttl_key_collision 1000 (by norm_num)

/-! ### Claim C6: optimize_queues deduplication -/

theorem dictGet_cons {β : Type} (p : String × β) (d : List (String × β))
    (k : String) :
    dictGet (p :: d) k = if p.1 = k then some p.2 else dictGet d k := by
  by_cases h : p.1 = k
  · simp [dictGet, List.find?_cons_of_pos, h]
  · simp [dictGet, List.find?_cons_of_neg, h]

theorem dictHas_cons {β : Type} (p : String × β) (d : List (String × β))
    (k : String) :
    dictHas (p :: d) k = (p.1 == k || dictHas d k) := by
  simp [dictHas]

theorem dictGet_update_self {β : Type} (d : List (String × β)) (k : String)
    (v : β) (hd : dictHas d k = true) :
    dictGet (d.map (fun p => if p.1 = k then (k, v) else p)) k = some v := by
  induction d with
  | nil => simp [dictHas] at hd
  | cons p d ih =>
    by_cases h : p.1 = k
    · simp [dictGet_cons, h]
    · rw [dictHas_cons] at hd
      simp [h] at hd
      simp [dictGet_cons, h, ih hd]

theorem dictGet_update_other {β : Type} (d : List (String × β)) (k k' : String)
    (v : β) (hk : k' ≠ k) :
    dictGet (d.map (fun p => if p.1 = k then (k, v) else p)) k' =
      dictGet d k' := by
  induction d with
  | nil => simp
  | cons p d ih =>
    by_cases h : p.1 = k
    · simp [dictGet_cons, h, Ne.symm hk, ih]
    · simp [dictGet_cons, h, ih]

theorem dictGet_append_self {β : Type} (d : List (String × β)) (k : String)
    (v : β) (hd : dictHas d k = false) :
    dictGet (d ++ [(k, v)]) k = some v := by
  induction d with
  | nil => simp [dictGet_cons]
  | cons p d ih =>
    rw [dictHas_cons] at hd
    simp only [Bool.or_eq_false_iff] at hd
    have h : ¬p.1 = k := by simpa using hd.1
    simp [List.cons_append, dictGet_cons, h, ih hd.2]

theorem dictGet_append_other {β : Type} (d : List (String × β)) (k k' : String)
    (v : β) (hk : k' ≠ k) :
    dictGet (d ++ [(k, v)]) k' = dictGet d k' := by
  induction d with
  | nil => simp [dictGet_cons, Ne.symm hk]
  | cons p d ih =>
    by_cases h : p.1 = k'
    · simp [List.cons_append, dictGet_cons, h, ih]
    · simp [List.cons_append, dictGet_cons, h, ih]

theorem dictGet_dictSet {β : Type} (d : List (String × β)) (k k' : String)
    (v : β) :
    dictGet (dictSet d k v) k' = if k' = k then some v else dictGet d k' := by
  unfold dictSet
  by_cases hk : k' = k
  · subst hk
    split <;> rename_i hd
    · simpa using dictGet_update_self d k' v hd
    · simpa using dictGet_append_self d k' v (by simpa using hd)
  · split <;> rename_i hd
    · simpa [hk] using dictGet_update_other d k k' v hk
    · simpa [hk] using dictGet_append_other d k k' v hk

theorem keys_dictSet {β : Type} (d : List (String × β)) (k : String) (v : β) :
    (dictSet d k v).map (fun p => p.1) =
      if dictHas d k then d.map (fun p => p.1)
      else d.map (fun p => p.1) ++ [k] := by
  unfold dictSet
  split
  · rw [List.map_map]
    refine List.map_congr_left ?_
    intro p _
    by_cases h : p.1 = k <;> simp [h, Function.comp]
  · simp

theorem mem_dictSet {β : Type} (d : List (String × β)) (k : String) (v : β)
    (q : String × β) (hq : q ∈ dictSet d k v) : q = (k, v) ∨ q ∈ d := by
  unfold dictSet at hq
  split at hq
  · rcases List.mem_map.1 hq with ⟨p, hp, hpe⟩
    by_cases h : p.1 = k
    · simp [h] at hpe; left; exact hpe.symm
    · simp [h] at hpe; right; exact hpe ▸ hp
  · rcases List.mem_append.1 hq with h | h
    · right; exact h
    · left; simpa using h

theorem dictHas_iff_keys {β : Type} (d : List (String × β)) (k : String) :
    dictHas d k = true ↔ k ∈ d.map (fun p => p.1) := by
  simp only [dictHas, List.any_eq_true, List.mem_map, beq_iff_eq]

theorem dedupLane_eq (l : List Request) :
    dedupLane l = (buildDict l).map (fun p => p.2) := rfl

theorem buildDict_concat (l : List Request) (r : Request) :
    buildDict (l ++ [r]) = dictSet (buildDict l) (compositeKey r) r := by
  simp [buildDict, List.foldl_append]

theorem goodDict_buildDict (l : List Request) : GoodDict (buildDict l) := by
  induction l using List.reverseRecOn with
  | nil => exact ⟨by simp [buildDict], by simp [buildDict]⟩
  | append_singleton l r ih =>
    rw [buildDict_concat]
    constructor
    · intro p hp
      rcases mem_dictSet _ _ _ p hp with h | h
      · subst h; rfl
      · exact ih.1 p h
    · rw [keys_dictSet]
      split <;> rename_i hd
      · exact ih.2
      · have : compositeKey r ∉ (buildDict l).map (fun p => p.1) := by
          intro hmem
          rw [← dictHas_iff_keys] at hmem
          simp [hmem] at hd
        simp [List.nodup_append, ih.2, this]

theorem dictGet_buildDict (l : List Request) (k : String) :
    dictGet (buildDict l) k =
      l.reverse.find? (fun x => compositeKey x == k) := by
  induction l using List.reverseRecOn with
  | nil => simp [buildDict, dictGet]
  | append_singleton l r ih =>
    rw [buildDict_concat, dictGet_dictSet]
    by_cases h : compositeKey r = k
    · simp [h, List.find?_cons_of_pos]
    · have h2 : ¬k = compositeKey r := fun he => h he.symm
      simp [h, h2, List.find?_cons_of_neg, ih]

theorem dictGet_of_mem_nodup (d : List (String × Request)) (k : String)
    (x : Request) (hn : (d.map (fun p => p.1)).Nodup) (hm : (k, x) ∈ d) :
    dictGet d k = some x := by
  induction d with
  | nil => simp at hm
  | cons q d ih =>
    rcases List.mem_cons.1 hm with h | h
    · rw [← h, dictGet_cons]
      simp
    · have hq : q.1 ≠ k := by
        intro he
        have : k ∈ d.map (fun p => p.1) :=
          List.mem_map.2 ⟨(k, x), h, rfl⟩
        rw [List.map_cons, List.nodup_cons] at hn
        exact hn.1 (he ▸ this)
      rw [dictGet_cons, if_neg hq]
      exact ih (by rw [List.map_cons, List.nodup_cons] at hn; exact hn.2) h

theorem mem_values_of_good (d : List (String × Request)) (hd : GoodDict d)
    (r : Request) :
    r ∈ d.map (fun p => p.2) ↔ dictGet d (compositeKey r) = some r := by
  constructor
  · intro hm
    rcases List.mem_map.1 hm with ⟨p, hp, he⟩
    have hk : p.1 = compositeKey r := by rw [← hd.1 p hp, he]
    have : (compositeKey r, r) ∈ d := by
      have : p = (compositeKey r, r) := by
        rcases p with ⟨a, b⟩
        simp at he hk
        simp [he, hk]
      exact this ▸ hp
    exact dictGet_of_mem_nodup d _ r hd.2 this
  · intro hg
    rcases hf : (d.find? (fun p => p.1 == compositeKey r)) with _ | p
    · simp [dictGet, hf] at hg
    · have hp : p ∈ d := List.mem_of_find?_eq_some hf
      have : p.2 = r := by simp [dictGet, hf] at hg; exact hg
      exact List.mem_map.2 ⟨p, hp, this⟩

theorem mem_dedupLane (l : List Request) (r : Request) :
    r ∈ dedupLane l ↔
      l.reverse.find? (fun x => compositeKey x == compositeKey r) = some r := by
  rw [dedupLane_eq, mem_values_of_good _ (goodDict_buildDict l),
    dictGet_buildDict]

theorem map_key_dedupLane (l : List Request) :
    (dedupLane l).map compositeKey = (buildDict l).map (fun p => p.1) := by
  rw [dedupLane_eq, List.map_map]
  exact List.map_congr_left (fun p hp => (goodDict_buildDict l).1 p hp)

theorem nodup_key_dedupLane (l : List Request) :
    ((dedupLane l).map compositeKey).Nodup := by
  rw [map_key_dedupLane]
  exact (goodDict_buildDict l).2

theorem keys_buildDict_subset (l : List Request) (k : String)
    (h : dictHas (buildDict l) k = true) : k ∈ l.map compositeKey := by
  induction l using List.reverseRecOn with
  | nil => simp [buildDict, dictHas] at h
  | append_singleton l r ih =>
    rw [buildDict_concat] at h
    rw [dictHas_iff_keys, keys_dictSet] at h
    by_cases hd : dictHas (buildDict l) k = true
    · simp [ih hd]
    · split at h <;> rename_i hb
      · exact absurd (dictHas_iff_keys _ _ |>.2 h) hd
      · rcases List.mem_append.1 h with h2 | h2
        · exact absurd (dictHas_iff_keys _ _ |>.2 h2) hd
        · simp at h2
          simp [h2]

theorem dedupLane_of_nodup (l : List Request)
    (h : (l.map compositeKey).Nodup) : dedupLane l = l := by
  induction l using List.reverseRecOn with
  | nil => rfl
  | append_singleton l r ih =>
    rw [List.map_append, List.nodup_append] at h
    have hnl : (l.map compositeKey).Nodup := h.1
    have hnr : compositeKey r ∉ l.map compositeKey := by
      intro hm
      exact h.2.2 hm (by simp)
    have hhas : dictHas (buildDict l) (compositeKey r) = false := by
      by_contra hc
      simp only [Bool.not_eq_false] at hc
      exact hnr (keys_buildDict_subset l _ hc)
    rw [dedupLane_eq, buildDict_concat]
    unfold dictSet
    rw [hhas]
    simp only [Bool.false_eq_true, if_false, List.map_append]
    rw [← dedupLane_eq, ih hnl]
    simp

theorem dedupLane_idem (l : List Request) :
    dedupLane (dedupLane l) = dedupLane l :=
  dedupLane_of_nodup _ (nodup_key_dedupLane l)

/-- Claim C6 as stated is false: dedup uses the joined string
`id + "_" + str(cache_key)`, so the pair `("a_b", "c")` and the pair
`("a", "b_c")` fall into one group.  Here the lane holds two items with
the pair `("a_b", some "c")` (a duplicate group) followed by one item
with the pair `("a", some "b_c")`; after `optimize_queues` the lane
keeps only the latter, so the duplicate group's last-seen member is
not kept. -/
theorem c6_counterexample :
    mC6.high.countP (fun r => r.id == "a_b" && r.cache_key == some "c") = 2 ∧
    (optimize_queues mC6).high.map (fun r => (r.id, r.cache_key)) =
      [("a", some "b_c")] ∧
    (optimize_queues mC6).high.countP
      (fun r => r.id == "a_b" && r.cache_key == some "c") = 0 := by
  refine ⟨by decide, by decide, by decide⟩

theorem lane_optimize (s : Manager) (p : Priority) :
    (optimize_queues s).lane p = dedupLane (s.lane p) := by
  cases p <;> rfl

/-- Claim C6 amended: after `optimize_queues` every lane holds at most
one item per `(id, cacheKey)` pair; an item survives in a lane exactly
when it is the last occurrence of its joined dedup key
`id + "_" + str(cacheKey)` in that lane; and a second
`optimize_queues` changes nothing. -/
theorem c6_optimize_dedup (s : Manager) :
    (∀ p : Priority, ∀ r1 r2, r1 ∈ (optimize_queues s).lane p →
      r2 ∈ (optimize_queues s).lane p → r1.id = r2.id →
      r1.cache_key = r2.cache_key → r1 = r2) ∧
    (∀ p : Priority, ∀ r, r ∈ (optimize_queues s).lane p ↔
      (s.lane p).reverse.find? (fun x => compositeKey x == compositeKey r) =
        some r) ∧
    optimize_queues (optimize_queues s) = optimize_queues s := by
  refine ⟨?_, ?_, ?_⟩
  · intro p r1 r2 h1 h2 hid hck
    rw [lane_optimize, mem_dedupLane] at h1 h2
    have hkey : compositeKey r1 = compositeKey r2 := by
      simp [compositeKey, hid, hck]
    rw [hkey] at h1
    rw [h1] at h2
    exact Option.some.inj h2
  · intro p r
    rw [lane_optimize, mem_dedupLane]
  · simp [optimize_queues, dedupLane_idem]

/-- Witness for C6 at a concrete input. -/
theorem c6_optimize_dedup_witness :
    optimize_queues (optimize_queues mC6) = optimize_queues mC6 :=
  (c6_optimize_dedup mC6).2.2

/-! ### Frame and preservation lemmas; claims C3, C5, C10 -/

theorem dictGet_isSome {β : Type} (d : List (String × β)) (k : String) :
    (dictGet d k).isSome = dictHas d k := by
  induction d with
  | nil => rfl
  | cons p d ih =>
    by_cases h : p.1 = k <;> simp [dictGet_cons, dictHas_cons, h, ih]

theorem get_from_cache_frame (s : Manager) (k : String) :
    (get_from_cache s k).2.high = s.high ∧
    (get_from_cache s k).2.normal = s.normal ∧
    (get_from_cache s k).2.low = s.low ∧
    (get_from_cache s k).2.invokeLog = s.invokeLog ∧
    (get_from_cache s k).2.callLog = s.callLog ∧
    (get_from_cache s k).2.sleepLog = s.sleepLog ∧
    (get_from_cache s k).2.request_history = s.request_history ∧
    (get_from_cache s k).2.now = s.now ∧
    (get_from_cache s k).2.max_requests_per_minute = s.max_requests_per_minute ∧
    (get_from_cache s k).2.stats.completed_requests =
      s.stats.completed_requests ∧
    (get_from_cache s k).2.stats.cached_responses =
      s.stats.cached_responses +
        (if (get_from_cache s k).1.isSome then 1 else 0) := by
  unfold get_from_cache
  by_cases h1 : dictHas s.cache k = true
  · by_cases h2 : s.now - dictGetD s.cache_ttl k 0 <
        dictGetD s.cache_ttl (k ++ "_ttl") 300
    · simp [h1, h2, dictGet_isSome]
    · simp [h1, h2]
  · simp [h1]

theorem runRequest_err (s : Manager) (r : Request) (e : String)
    (hf : r.func r.attempts = Except.error e) :
    (runRequest s r).1.high = s.high ∧
    (runRequest s r).1.normal = s.normal ∧
    (runRequest s r).1.low =
      (if r.attempts + 1 < 3 then
        [{ r with status := .failed, attempts := r.attempts + 1 }] else []) ++
        s.low ∧
    (∃ t, (runRequest s r).1.invokeLog = s.invokeLog ++ [(r.id, t)]) ∧
    (runRequest s r).1.callLog = s.callLog ∧
    (runRequest s r).1.stats.completed_requests = s.stats.completed_requests ∧
    (runRequest s r).1.stats.cached_responses = s.stats.cached_responses ∧
    (runRequest s r).2 = (Except.error e, false) := by
  unfold runRequest
  simp only [hf]
  by_cases hcan : (pruneHistory s.now s.request_history).length <
      s.max_requests_per_minute <;>
    by_cases hre : r.attempts + 1 < 3 <;>
      simp [hcan, hre, can_make_request]

theorem runRequest_ok (s : Manager) (r : Request) (v : Int)
    (hf : r.func r.attempts = Except.ok v) :
    (runRequest s r).1.high = s.high ∧
    (runRequest s r).1.normal = s.normal ∧
    (runRequest s r).1.low = s.low ∧
    (∃ t, (runRequest s r).1.invokeLog = s.invokeLog ++ [(r.id, t)]) ∧
    (∃ t, (runRequest s r).1.callLog = s.callLog ++ [t]) ∧
    (runRequest s r).1.stats.completed_requests =
      s.stats.completed_requests + 1 ∧
    (runRequest s r).1.stats.cached_responses = s.stats.cached_responses ∧
    (runRequest s r).2 = (Except.ok v, true) := by
  unfold runRequest
  simp only [hf]
  rcases hck : r.cache_key with _ | ck <;>
    by_cases hcan : (pruneHistory s.now s.request_history).length <
        s.max_requests_per_minute <;>
      simp [hcan, hck, can_make_request, set_cache]

theorem get_next_request_none (s s1 : Manager)
    (h : get_next_request s = (none, s1)) :
    s1 = s ∧ s.high = [] ∧ s.normal = [] ∧ s.low = [] := by
  rcases hh : s.high with _ | ⟨r, t⟩ <;>
    rcases hn : s.normal with _ | ⟨r2, t2⟩ <;>
    rcases hl : s.low with _ | ⟨r3, t3⟩ <;>
    simp_all [get_next_request]

theorem get_next_request_some (s : Manager) (r : Request) (s1 : Manager)
    (h : get_next_request s = (some r, s1)) :
    (r ∈ s.high ∨ r ∈ s.normal ∨ r ∈ s.low) ∧
    (∀ x ∈ s1.high, x ∈ s.high) ∧ (∀ x ∈ s1.normal, x ∈ s.normal) ∧
    (∀ x ∈ s1.low, x ∈ s.low) ∧
    s1.invokeLog = s.invokeLog ∧ s1.callLog = s.callLog ∧
    s1.request_history = s.request_history ∧ s1.now = s.now ∧
    s1.stats = s.stats ∧
    s1.max_requests_per_minute = s.max_requests_per_minute := by
  rcases hh : s.high with _ | ⟨r2, t2⟩
  · rcases hn : s.normal with _ | ⟨r3, t3⟩
    · rcases hl : s.low with _ | ⟨r4, t4⟩
      · simp_all [get_next_request]
      · simp only [get_next_request, hh, hn, hl] at h
        obtain ⟨he, hs⟩ := Prod.mk.injEq .. ▸ h
        cases he
        subst hs
        simp_all [List.mem_cons]
    · simp only [get_next_request, hh, hn] at h
      obtain ⟨he, hs⟩ := Prod.mk.injEq .. ▸ h
      cases he
      subst hs
      simp_all [List.mem_cons]
  · simp only [get_next_request, hh] at h
    obtain ⟨he, hs⟩ := Prod.mk.injEq .. ▸ h
    cases he
    subst hs
    simp_all [List.mem_cons]

theorem runRequest_queues (s : Manager) (r : Request) :
    (runRequest s r).1.high = s.high ∧ (runRequest s r).1.normal = s.normal ∧
    (∀ x ∈ (runRequest s r).1.low, x ∈ s.low ∨ x.id = r.id) ∧
    (∃ t, (runRequest s r).1.invokeLog = s.invokeLog ++ [(r.id, t)]) := by
  rcases hfr : r.func r.attempts with e | v
  · obtain ⟨h1, h2, h3, h4, -⟩ := runRequest_err s r e hfr
    refine ⟨h1, h2, ?_, h4⟩
    intro x hx
    rw [h3] at hx
    rcases List.mem_append.1 hx with hx | hx
    · right
      rcases hre : decide (r.attempts + 1 < 3) with _ | _
      · simp [hre] at hx
        simp_all
      · simp [of_decide_eq_true hre] at hx
        simp [hx]
    · exact Or.inl hx
  · obtain ⟨h1, h2, h3, h4, -⟩ := runRequest_ok s r v hfr
    exact ⟨h1, h2, fun x hx => Or.inl (h3 ▸ hx), h4⟩

theorem batchStep_idAbsent (id : String) (s : Manager)
    (res : List (String × Except String Int)) (p : Nat)
    (h : IdAbsent id s) :
    batchStep s res p = none ∨
    ∃ s1 res1 p1, batchStep s res p = some (s1, res1, p1) ∧ IdAbsent id s1 ∧
      invCount id s1 = invCount id s := by
  unfold batchStep
  rcases hnext : get_next_request s with ⟨_ | r, s1⟩
  · exact Or.inl rfl
  · right
    obtain ⟨hmem, hh, hn, hl, hlog, -, -, -, -, -⟩ :=
      get_next_request_some s r s1 hnext
    have hrid : r.id ≠ id := by
      rcases hmem with hm | hm | hm
      · exact h.1 r hm
      · exact h.2.1 r hm
      · exact h.2.2 r hm
    have habs1 : IdAbsent id s1 :=
      ⟨fun x hx => h.1 x (hh x hx), fun x hx => h.2.1 x (hn x hx),
        fun x hx => h.2.2 x (hl x hx)⟩
    have hrun : ∀ s2 : Manager, IdAbsent id s2 → s2.invokeLog = s.invokeLog →
        IdAbsent id (runRequest s2 r).1 ∧
          invCount id (runRequest s2 r).1 = invCount id s := by
      intro s2 habs2 hlog2
      obtain ⟨q1, q2, q3, t, q4⟩ := runRequest_queues s2 r
      refine ⟨⟨fun x hx => habs2.1 x (q1 ▸ hx),
        fun x hx => habs2.2.1 x (q2 ▸ hx), ?_⟩, ?_⟩
      · intro x hx
        rcases q3 x hx with hm | hm
        · exact habs2.2.2 x hm
        · rw [hm]; exact hrid
      · unfold invCount
        rw [q4, hlog2, List.countP_append]
        simp [hrid]
    rcases hck : r.cache_key with _ | ck
    · obtain ⟨ha, hb⟩ := hrun s1 habs1 hlog
      exact ⟨(runRequest s1 r).1, dictSet res r.id (runRequest s1 r).2.1,
        if (runRequest s1 r).2.2 then p + 1 else p,
        by simp only [hnext, hck], ha, hb⟩
    · rcases hgc : get_from_cache s1 ck with ⟨_ | v, s2⟩
      · obtain ⟨f1, f2, f3, f4, -⟩ := get_from_cache_frame s1 ck
        rw [hgc] at f1 f2 f3 f4
        have habs2 : IdAbsent id s2 :=
          ⟨fun x hx => habs1.1 x (f1 ▸ hx), fun x hx => habs1.2.1 x (f2 ▸ hx),
            fun x hx => habs1.2.2 x (f3 ▸ hx)⟩
        obtain ⟨ha, hb⟩ := hrun s2 habs2 (f4.trans hlog)
        exact ⟨(runRequest s2 r).1, dictSet res r.id (runRequest s2 r).2.1,
          if (runRequest s2 r).2.2 then p + 1 else p,
          by simp only [hnext, hck, hgc], ha, hb⟩
      · obtain ⟨f1, f2, f3, f4, -⟩ := get_from_cache_frame s1 ck
        rw [hgc] at f1 f2 f3 f4
        refine ⟨s2, dictSet res r.id (Except.ok v), p + 1,
          by simp only [hnext, hck, hgc], ⟨fun x hx => habs1.1 x (f1 ▸ hx),
          fun x hx => habs1.2.1 x (f2 ▸ hx),
          fun x hx => habs1.2.2 x (f3 ▸ hx)⟩, ?_⟩
        unfold invCount
        rw [f4, hlog]

theorem mem_of_mem_dedupLane (l : List Request) (r : Request)
    (h : r ∈ dedupLane l) : r ∈ l := by
  rw [mem_dedupLane] at h
  exact List.mem_reverse.1 (List.mem_of_find?_eq_some h)

theorem batchLoop_idAbsent (id : String) (bs : Nat) (tout st : ℚ)
    (fuel : Nat) :
    ∀ (s : Manager) res p, IdAbsent id s →
      IdAbsent id (batchLoop bs tout st fuel s res p).1 ∧
      invCount id (batchLoop bs tout st fuel s res p).1 = invCount id s := by
  induction fuel with
  | zero => intro s res p h; exact ⟨h, rfl⟩
  | succ fuel ih =>
    intro s res p h
    rw [batchLoop]
    split
    · rcases batchStep_idAbsent id s res p h with hnone | ⟨s1, res1, p1, he, h1, h2⟩
      · rw [hnone]
        exact ⟨h, rfl⟩
      · rw [he]
        obtain ⟨ha, hb⟩ := ih s1 res1 p1 h1
        exact ⟨ha, hb.trans h2⟩
    · exact ⟨h, rfl⟩

theorem applyOp_idAbsent (id : String) (s : Manager) (op : Op)
    (h : IdAbsent id s) (hop : OpNoAdd id op) :
    IdAbsent id (applyOp s op) ∧ invCount id (applyOp s op) = invCount id s := by
  cases op with
  | add id2 f d priority ck ttl =>
    have hid : id2 ≠ id := hop
    cases priority <;>
      simp_all [applyOp, add_request, Manager.lane, Manager.setLane, IdAbsent,
        invCount] <;>
      aesop
  | batch bs t =>
    exact batchLoop_idAbsent id bs t s.now (batchFuel s) s [] 0 h
  | advance dt => exact ⟨h, rfl⟩
  | cset k v ttl => exact ⟨h, rfl⟩
  | cget k =>
    obtain ⟨f1, f2, f3, f4, -⟩ := get_from_cache_frame s k
    refine ⟨⟨fun x hx => h.1 x (f1 ▸ hx), fun x hx => h.2.1 x (f2 ▸ hx),
      fun x hx => h.2.2 x (f3 ▸ hx)⟩, ?_⟩
    unfold invCount
    rw [show (applyOp s (Op.cget k)).invokeLog = s.invokeLog from f4]
  | status => exact ⟨h, rfl⟩
  | optimize =>
    refine ⟨⟨fun x hx => h.1 x (mem_of_mem_dedupLane _ _ hx),
      fun x hx => h.2.1 x (mem_of_mem_dedupLane _ _ hx),
      fun x hx => h.2.2 x (mem_of_mem_dedupLane _ _ hx)⟩, rfl⟩

theorem runOps_idAbsent (id : String) (ops : List Op) :
    ∀ s : Manager, IdAbsent id s → (∀ op ∈ ops, OpNoAdd id op) →
      IdAbsent id (runOps s ops) ∧ invCount id (runOps s ops) = invCount id s := by
  induction ops with
  | nil => intro s h _; exact ⟨h, rfl⟩
  | cons op ops ih =>
    intro s h hops
    obtain ⟨h1, h2⟩ := applyOp_idAbsent id s op h (hops op (by simp))
    obtain ⟨h3, h4⟩ := ih (applyOp s op) h1 (fun o ho => hops o (by simp [ho]))
    exact ⟨h3, h4.trans h2⟩

/-- Claim C3: an always-failing operation submitted to a fresh default
manager is invoked exactly 3 times by one adequate `process_batch`
call; afterwards all lanes are empty (never requeued a fourth time),
the caller-visible terminal outcome is an error value in the returned
results map (the embedding is total, so no fault is thrown), and no
sequence of further operations that does not resubmit the id ever
invokes it again. -/
theorem c3_retry_bound (id : String) (f : Nat → Except String Int) (ttl : ℚ)
    (p : Priority) (hf : ∀ n, ∃ e, f n = Except.error e) :
    (c3out id f ttl p).1.invokeLog.map (fun q => q.1) = [id, id, id] ∧
    (∃ e, dictGet (c3out id f ttl p).2.1 id = some (Except.error e)) ∧
    (c3out id f ttl p).1.high = [] ∧ (c3out id f ttl p).1.normal = [] ∧
    (c3out id f ttl p).1.low = [] ∧
    (∀ ops : List Op, (∀ op ∈ ops, OpNoAdd id op) →
      invCount id (runOps (c3out id f ttl p).1 ops) = 3) := by
  obtain ⟨e0, h0⟩ := hf 0
  obtain ⟨e1, h1⟩ := hf 1
  obtain ⟨e2, h2⟩ := hf 2
  have hlog : (c3out id f ttl p).1.invokeLog = [(id, 0), (id, 0), (id, 0)] := by
    cases p <;>
      norm_num [c3out, process_batch, batchLoop, batchStep, batchFuel,
        get_queue_size, add_request, initManager, Manager.lane,
        Manager.setLane, get_next_request, runRequest, can_make_request,
        pruneHistory, calculate_wait_time, get_from_cache, dictGet, dictGetD,
        dictHas, dictSet, dequeAppend, h0, h1, h2]
  have hempty : (c3out id f ttl p).1.high = [] ∧
      (c3out id f ttl p).1.normal = [] ∧ (c3out id f ttl p).1.low = [] := by
    cases p <;>
      refine ⟨?_, ?_, ?_⟩ <;>
      norm_num [c3out, process_batch, batchLoop, batchStep, batchFuel,
        get_queue_size, add_request, initManager, Manager.lane,
        Manager.setLane, get_next_request, runRequest, can_make_request,
        pruneHistory, calculate_wait_time, get_from_cache, dictGet, dictGetD,
        dictHas, dictSet, dequeAppend, h0, h1, h2]
  refine ⟨by rw [hlog]; rfl, ⟨e2, ?_⟩, hempty.1, hempty.2.1, hempty.2.2, ?_⟩
  · cases p <;>
      norm_num [c3out, process_batch, batchLoop, batchStep, batchFuel,
        get_queue_size, add_request, initManager, Manager.lane,
        Manager.setLane, get_next_request, runRequest, can_make_request,
        pruneHistory, calculate_wait_time, get_from_cache, dictGet, dictGetD,
        dictHas, dictSet, dequeAppend, h0, h1, h2]
  · intro ops hops
    have habs : IdAbsent id (c3out id f ttl p).1 := by
      refine ⟨?_, ?_, ?_⟩ <;> simp [hempty.1, hempty.2.1, hempty.2.2]
    have hcount : invCount id (c3out id f ttl p).1 = 3 := by
      simp [invCount, hlog]
    obtain ⟨-, h4⟩ := runOps_idAbsent id ops (c3out id f ttl p).1 habs hops
    rw [h4, hcount]

theorem c3_retry_bound_witness :
    invCount "a" (runOps
      (c3out "a" (fun _ => Except.error "boom") 300 Priority.high).1
      [Op.batch 5 1]) = 3 :=
  (c3_retry_bound "a" (fun _ => Except.error "boom") 300 Priority.high
    (fun _ => ⟨"boom", rfl⟩)).2.2.2.2.2 [Op.batch 5 1]
    (by intro op hop; simp at hop; subst hop; trivial)

theorem batchLoop_succ_cont (bs : Nat) (tout st : ℚ) (fuel : Nat)
    (s s1 : Manager) (res res1 : List (String × Except String Int))
    (p p1 : Nat) (hc : p < bs ∧ s.now - st < tout)
    (hstep : batchStep s res p = some (s1, res1, p1)) :
    batchLoop bs tout st (fuel + 1) s res p =
      batchLoop bs tout st fuel s1 res1 p1 := by
  rw [batchLoop, if_pos hc, hstep]

/-- Claim C5 as stated is false: a request whose single invocation
fails with one attempt used (two retries remaining) and whose duration
outlasts the batch timeout ends the batch with its id mapped to an
error value in the returned results, although its retries are not
exhausted (it sits requeued in the low lane with `attempts = 1`). -/
theorem c5_counterexample :
    dictGet (process_batch sC5 10 30).2.1 "a" = some (.error "x") ∧
    (process_batch sC5 10 30).1.low.map (fun r => (r.id, r.attempts)) =
      [("a", 1)] := by
  refine ⟨?_, ?_⟩ <;>
    norm_num +decide [sC5, process_batch, batchLoop, batchStep, batchFuel,
      get_queue_size, add_request, initManager, Manager.lane, Manager.setLane,
      get_next_request, runRequest, can_make_request, pruneHistory,
      calculate_wait_time, get_from_cache, set_cache, dictGet, dictGetD,
      dictHas, dictSet, dequeAppend]

/-- Claim C5 amended: a failure with remaining attempts is requeued at
the front of the low lane with `attempts + 1` and status failed, and is
also immediately recorded as an error value under the item's id in the
current batch's results map (a later retry in the same batch may
overwrite that entry). -/
theorem c5_failure_recorded_and_requeued (s s1 : Manager) (r : Request)
    (e : String) (bs fuel p1 : Nat) (tout st : ℚ)
    (res : List (String × Except String Int))
    (hf : r.func r.attempts = Except.error e) (ha : r.attempts + 1 < 3)
    (hnext : get_next_request s = (some r, s1)) (hck : r.cache_key = none)
    (hc : p1 < bs ∧ s.now - st < tout) :
    (runRequest s1 r).1.low =
      { r with status := .failed, attempts := r.attempts + 1 } :: s1.low ∧
    (runRequest s1 r).2 = (Except.error e, false) ∧
    batchLoop bs tout st (fuel + 1) s res p1 =
      batchLoop bs tout st fuel (runRequest s1 r).1
        (dictSet res r.id (Except.error e)) p1 := by
  obtain ⟨-, -, h3, -, -, -, -, h8⟩ := runRequest_err s1 r e hf
  have hlow : (runRequest s1 r).1.low =
      { r with status := .failed, attempts := r.attempts + 1 } :: s1.low := by
    rw [h3, if_pos ha]
    rfl
  refine ⟨hlow, h8, ?_⟩
  have hstep : batchStep s res p1 =
      some ((runRequest s1 r).1, dictSet res r.id (Except.error e), p1) := by
    simp [batchStep, hnext, hck, h8]
  exact batchLoop_succ_cont bs tout st fuel s _ res _ p1 p1 hc hstep

theorem runRequest_stats (s : Manager) (r : Request) :
    (runRequest s r).1.stats.completed_requests +
      (runRequest s r).1.stats.cached_responses =
      s.stats.completed_requests + s.stats.cached_responses +
        (if (runRequest s r).2.2 then 1 else 0) := by
  rcases hfr : r.func r.attempts with e | v
  · obtain ⟨-, -, -, -, -, h6, h7, h8⟩ := runRequest_err s r e hfr
    rw [h6, h7, h8]
    simp
  · obtain ⟨-, -, -, -, -, h6, h7, h8⟩ := runRequest_ok s r v hfr
    rw [h6, h7, h8]
    simp
    ring

theorem batchStep_processed (s : Manager)
    (res : List (String × Except String Int)) (p : Nat) (s1 : Manager)
    (res1 : List (String × Except String Int)) (p1 : Nat)
    (h : batchStep s res p = some (s1, res1, p1)) :
    s1.stats.completed_requests + s1.stats.cached_responses + p =
      s.stats.completed_requests + s.stats.cached_responses + p1 := by
  unfold batchStep at h
  rcases hnext : get_next_request s with ⟨_ | r, sA⟩ <;> rw [hnext] at h <;>
    dsimp only at h
  · exact absurd h (by simp)
  · obtain ⟨-, -, -, -, -, -, -, -, hst, -⟩ := get_next_request_some s r sA hnext
    rcases hck : r.cache_key with _ | ck <;> rw [hck] at h <;> dsimp only at h
    · simp only [Option.some.injEq, Prod.mk.injEq] at h
      obtain ⟨hs1, -, hp1⟩ := h
      have hrs := runRequest_stats sA r
      rw [hs1, hst] at hrs
      split at hp1 <;> rename_i hflag <;> simp [hflag] at hrs <;> omega
    · rcases hgc : get_from_cache sA ck with ⟨_ | v, s2⟩ <;> rw [hgc] at h <;>
        dsimp only at h
      · obtain ⟨-, -, -, -, -, -, -, -, -, f10, f11⟩ :=
          get_from_cache_frame sA ck
        rw [hgc] at f10 f11
        simp at f10 f11
        simp only [Option.some.injEq, Prod.mk.injEq] at h
        obtain ⟨hs1, -, hp1⟩ := h
        have hrs := runRequest_stats s2 r
        rw [hs1] at hrs
        rw [f10, f11, hst] at hrs
        split at hp1 <;> rename_i hflag <;> simp [hflag] at hrs <;> omega
      · obtain ⟨-, -, -, -, -, -, -, -, -, f10, f11⟩ :=
          get_from_cache_frame sA ck
        rw [hgc] at f10 f11
        simp at f10 f11
        simp only [Option.some.injEq, Prod.mk.injEq] at h
        obtain ⟨hs1, -, hp1⟩ := h
        rw [hst] at f10 f11
        rw [← hs1]
        omega

theorem batchLoop_processed (bs : Nat) (tout st : ℚ) (fuel : Nat) :
    ∀ (s : Manager) (res : List (String × Except String Int)) (p : Nat),
      (batchLoop bs tout st fuel s res p).1.stats.completed_requests +
        (batchLoop bs tout st fuel s res p).1.stats.cached_responses + p =
        s.stats.completed_requests + s.stats.cached_responses +
          (batchLoop bs tout st fuel s res p).2.2 := by
  induction fuel with
  | zero => intro s res p; simp [batchLoop]
  | succ fuel ih =>
    intro s res p
    rw [batchLoop]
    split
    · rcases hsc : batchStep s res p with _ | ⟨s1, res1, p1⟩ <;> dsimp only
      have h1 := ih s1 res1 p1
      have h2 := batchStep_processed s res p s1 res1 p1 hsc
      omega
    · dsimp only

/-- Claim C10: in any `process_batch` call the returned `processed`
count equals the number of successful completions plus the number of
cache hits in that batch (failed invocations increment neither), and
the number of operation invocations in one batch can exceed
`batch_size`: an always-failing item run with `batch_size = 1` is
invoked 3 times while `processed` stays 0. -/
theorem c10_processed_counts (s : Manager) (bs : Nat) (tout : ℚ) :
    ((process_batch s bs tout).1.stats.completed_requests +
      (process_batch s bs tout).1.stats.cached_responses =
      s.stats.completed_requests + s.stats.cached_responses +
        (process_batch s bs tout).2.2.1) ∧
    (process_batch sFail 1 30).2.2.1 = 0 ∧
    1 < (process_batch sFail 1 30).1.invokeLog.length := by
  refine ⟨?_, ?_, ?_⟩
  · have h := batchLoop_processed bs tout s.now (batchFuel s) s [] 0
    simpa [process_batch] using h
  · norm_num +decide [sFail, process_batch, batchLoop, batchStep, batchFuel,
      get_queue_size, add_request, initManager, Manager.lane, Manager.setLane,
      get_next_request, runRequest, can_make_request, pruneHistory,
      calculate_wait_time, get_from_cache, dictGet, dictGetD, dictHas,
      dictSet, dequeAppend]
  · norm_num +decide [sFail, process_batch, batchLoop, batchStep, batchFuel,
      get_queue_size, add_request, initManager, Manager.lane, Manager.setLane,
      get_next_request, runRequest, can_make_request, pruneHistory,
      calculate_wait_time, get_from_cache, dictGet, dictGetD, dictHas,
      dictSet, dequeAppend]

theorem c10_processed_counts_witness :
    (process_batch sFail 1 30).1.stats.completed_requests +
      (process_batch sFail 1 30).1.stats.cached_responses =
      sFail.stats.completed_requests + sFail.stats.cached_responses +
        (process_batch sFail 1 30).2.2.1 :=
  (c10_processed_counts sFail 1 30).1

/-- Witness for C5 at a concrete input. -/
theorem c5_failure_recorded_and_requeued_witness :
    (runRequest { mC5 with high := [] } rC5).1.low =
      { rC5 with status := .failed, attempts := rC5.attempts + 1 } ::
        ({ mC5 with high := [] } : Manager).low ∧
    (runRequest { mC5 with high := [] } rC5).2 = (Except.error "y", false) ∧
    batchLoop 1 30 0 1 mC5 [] 0 =
      batchLoop 1 30 0 0 (runRequest { mC5 with high := [] } rC5).1
        (dictSet [] rC5.id (Except.error "y")) 0 :=
  c5_failure_recorded_and_requeued mC5 { mC5 with high := [] } rC5 "y" 1 0 0
    30 0 [] rfl (by norm_num [rC5]) rfl rfl
    ⟨by norm_num, by norm_num [mC5, initManager]⟩

/-! ### Claim C2: TTL cache get/set semantics -/

theorem append_ttl_ne (k : String) : k ≠ k ++ "_ttl" := by
  intro h
  have hd := congrArg String.data h
  rw [String.data_append] at hd
  have : ("_ttl" : String).data = [] := by
    have := List.self_eq_append_right.1 hd
    exact this
  simp at this

theorem append_ttl_inj (a b : String) (h : a ++ "_ttl" = b ++ "_ttl") :
    a = b := by
  have hd := congrArg String.data h
  rw [String.data_append, String.data_append] at hd
  have : a.data = b.data := List.append_left_injective _ hd
  exact String.ext this

theorem dictHas_of_dictGet_some {β : Type} (d : List (String × β))
    (k : String) (x : β) (h : dictGet d k = some x) : dictHas d k = true := by
  induction d with
  | nil => simp [dictGet] at h
  | cons p d ih =>
    rw [dictGet_cons] at h
    rw [dictHas_cons]
    by_cases hp : p.1 = k
    · simp [hp]
    · rw [if_neg hp] at h
      simp [hp, ih h]

theorem dictGet_dictDel_ne {β : Type} (d : List (String × β)) (k k2 : String)
    (h : k ≠ k2) : dictGet (dictDel d k2) k = dictGet d k := by
  induction d with
  | nil => rfl
  | cons p d ih =>
    by_cases hp : p.1 = k2
    · have hpk : p.1 ≠ k := by rw [hp]; exact fun he => h he.symm
      have hfil : dictDel (p :: d) k2 = dictDel d k2 := by
        simp [dictDel, List.filter_cons, hp]
      rw [hfil, ih, dictGet_cons, if_neg hpk]
    · have hfil : dictDel (p :: d) k2 = p :: dictDel d k2 := by
        simp [dictDel, List.filter_cons, hp]
      rw [hfil, dictGet_cons, dictGet_cons, ih]

theorem dictHas_dictDel_self {β : Type} (d : List (String × β)) (k : String) :
    dictHas (dictDel d k) k = false := by
  induction d with
  | nil => rfl
  | cons p d ih =>
    by_cases hp : p.1 = k <;>
      simp [dictDel, List.filter_cons, hp, dictHas_cons, ih] <;>
      simp [dictDel] at ih <;> exact ih

theorem dictHas_dictDel_mono {β : Type} (d : List (String × β))
    (k k2 : String) (h : dictHas d k = false) :
    dictHas (dictDel d k2) k = false := by
  induction d with
  | nil => rfl
  | cons p d ih =>
    rw [dictHas_cons] at h
    simp only [Bool.or_eq_false_iff] at h
    by_cases hp : p.1 = k2 <;>
      simp [dictDel, List.filter_cons, hp, dictHas_cons, h.1] <;>
      simp [dictDel] at ih <;> exact ih h.2

theorem dictHas_dictSet_ne {β : Type} (d : List (String × β)) (k k2 : String)
    (v : β) (h : k ≠ k2) : dictHas (dictSet d k2 v) k = dictHas d k := by
  have hiff : dictHas (dictSet d k2 v) k = true ↔ dictHas d k = true := by
    rw [dictHas_iff_keys, dictHas_iff_keys, keys_dictSet]
    split
    · exact Iff.rfl
    · simp [h]
  rcases hb : dictHas d k with _ | _
  · rcases hc : dictHas (dictSet d k2 v) k with _ | _
    · rfl
    · rw [hb] at hiff
      exact absurd (hiff.1 hc) (by simp)
  · exact hiff.2 hb

theorem cacheInv_set (s0 : Manager) (k : String) (v : Int) (ttl : ℚ) :
    CacheInv k v s0.now ttl (set_cache s0 k v ttl) := by
  left
  refine ⟨?_, ?_, ?_⟩
  · rw [show (set_cache s0 k v ttl).cache = dictSet s0.cache k v from rfl,
      dictGet_dictSet, if_pos rfl]
  · rw [show (set_cache s0 k v ttl).cache_ttl =
      dictSet (dictSet s0.cache_ttl k s0.now) (k ++ "_ttl") ttl from rfl,
      dictGet_dictSet, if_neg (append_ttl_ne k), dictGet_dictSet, if_pos rfl]
  · rw [show (set_cache s0 k v ttl).cache_ttl =
      dictSet (dictSet s0.cache_ttl k s0.now) (k ++ "_ttl") ttl from rfl,
      dictGet_dictSet, if_pos rfl]

theorem cacheInv_step (k : String) (v : Int) (setTime ttl : ℚ) (s : Manager)
    (op : Op) (hinv : CacheInv k v setTime ttl s) (hop : CacheOpSafe k op) :
    CacheInv k v setTime ttl (applyOp s op) := by
  cases op with
  | add id2 f d priority ck t => exact hop.elim
  | batch bs t => exact hop.elim
  | status => exact hop.elim
  | optimize => exact hop.elim
  | advance dt =>
    rcases hinv with ⟨g1, g2, g3⟩ | ⟨g1, g2⟩
    · exact Or.inl ⟨g1, g2, g3⟩
    · refine Or.inr ⟨g1, ?_⟩
      have hdt : (0 : ℚ) ≤ dt := hop
      show setTime + ttl ≤ s.now + dt
      linarith
  | cset k2 v2 t2 =>
    obtain ⟨h1, h2, h3⟩ := hop
    have h4 : k2 ++ "_ttl" ≠ k ++ "_ttl" := fun he => h1 (append_ttl_inj _ _ he)
    have hk1 : ¬k = k2 := fun he => h1 he.symm
    have hk2 : ¬k = k2 ++ "_ttl" := fun he => h3 he.symm
    have hk3 : ¬k ++ "_ttl" = k2 := fun he => h2 he.symm
    have hk4 : ¬k ++ "_ttl" = k2 ++ "_ttl" := fun he => h4 he.symm
    rcases hinv with ⟨g1, g2, g3⟩ | ⟨g1, g2⟩
    · left
      refine ⟨?_, ?_, ?_⟩
      · rw [show (applyOp s (Op.cset k2 v2 t2)).cache =
          dictSet s.cache k2 v2 from rfl, dictGet_dictSet, if_neg hk1]
        exact g1
      · rw [show (applyOp s (Op.cset k2 v2 t2)).cache_ttl =
          dictSet (dictSet s.cache_ttl k2 s.now) (k2 ++ "_ttl") t2 from rfl,
          dictGet_dictSet, if_neg hk2, dictGet_dictSet, if_neg hk1]
        exact g2
      · rw [show (applyOp s (Op.cset k2 v2 t2)).cache_ttl =
          dictSet (dictSet s.cache_ttl k2 s.now) (k2 ++ "_ttl") t2 from rfl,
          dictGet_dictSet, if_neg hk4, dictGet_dictSet, if_neg hk3]
        exact g3
    · right
      refine ⟨?_, g2⟩
      rw [show (applyOp s (Op.cset k2 v2 t2)).cache =
        dictSet s.cache k2 v2 from rfl,
        dictHas_dictSet_ne s.cache k k2 v2 (fun he => h1 he.symm)]
      exact g1
  | cget k2 =>
    show CacheInv k v setTime ttl (get_from_cache s k2).2
    rcases hop with he | ⟨h1, h2, h3⟩
    · subst he
      rcases hinv with ⟨g1, g2, g3⟩ | ⟨g1, g2⟩
      · have hb : dictHas s.cache k2 = true := dictHas_of_dictGet_some _ _ _ g1
        have hgd1 : dictGetD s.cache_ttl k2 0 = setTime := by
          rw [dictGetD, g2]
          rfl
        have hgd2 : dictGetD s.cache_ttl (k2 ++ "_ttl") 300 = ttl := by
          rw [dictGetD, g3]
          rfl
        by_cases hcond : s.now - setTime < ttl
        · left
          refine ⟨?_, ?_, ?_⟩ <;>
            simp [get_from_cache, hb, hgd1, hgd2, hcond, g1, g2, g3]
        · right
          constructor
          · simp only [get_from_cache, hb, if_true, hgd1, hgd2, hcond,
              if_false]
            exact dictHas_dictDel_self s.cache k2
          · have : (get_from_cache s k2).2.now = s.now := by
              simp [get_from_cache, hb, hgd1, hgd2, hcond]
            rw [this]
            linarith [not_lt.1 hcond]
      · have hstate : (get_from_cache s k2).2 = s := by
          simp [get_from_cache, g1]
        rw [hstate]
        exact Or.inr ⟨g1, g2⟩
    · have h4 : ¬k = k2 := fun he => h1 he.symm
      have h5 : ¬k = k2 ++ "_ttl" := fun he => h3 he.symm
      have h6 : ¬k ++ "_ttl" = k2 := fun he => h2 he.symm
      have h7 : ¬k ++ "_ttl" = k2 ++ "_ttl" :=
        fun he => h1 (append_ttl_inj _ _ he).symm
      by_cases hb : dictHas s.cache k2 = true
      · by_cases hcond : s.now - dictGetD s.cache_ttl k2 0 <
            dictGetD s.cache_ttl (k2 ++ "_ttl") 300
        · have hstate : (get_from_cache s k2).2.cache = s.cache ∧
              (get_from_cache s k2).2.cache_ttl = s.cache_ttl ∧
              (get_from_cache s k2).2.now = s.now := by
            refine ⟨?_, ?_, ?_⟩ <;> simp [get_from_cache, hb, hcond]
          rcases hinv with ⟨g1, g2, g3⟩ | ⟨g1, g2⟩
          · exact Or.inl ⟨hstate.1 ▸ g1, hstate.2.1 ▸ g2, hstate.2.1 ▸ g3⟩
          · exact Or.inr ⟨hstate.1 ▸ g1, hstate.2.2 ▸ g2⟩
        · have hstate : (get_from_cache s k2).2.cache = dictDel s.cache k2 ∧
              (get_from_cache s k2).2.cache_ttl =
                dictDel (dictDel s.cache_ttl k2) (k2 ++ "_ttl") ∧
              (get_from_cache s k2).2.now = s.now := by
            refine ⟨?_, ?_, ?_⟩ <;> simp [get_from_cache, hb, hcond]
          rcases hinv with ⟨g1, g2, g3⟩ | ⟨g1, g2⟩
          · left
            refine ⟨?_, ?_, ?_⟩
            · rw [hstate.1, dictGet_dictDel_ne _ _ _ (fun he => h1 he.symm)]
              exact g1
            · rw [hstate.2.1, dictGet_dictDel_ne _ _ _ h5,
                dictGet_dictDel_ne _ _ _ h4]
              exact g2
            · rw [hstate.2.1, dictGet_dictDel_ne _ _ _ h7,
                dictGet_dictDel_ne _ _ _ h6]
              exact g3
          · right
            refine ⟨?_, hstate.2.2 ▸ g2⟩
            rw [hstate.1]
            exact dictHas_dictDel_mono s.cache k k2 g1
      · have hstate : (get_from_cache s k2).2 = s := by
          simp [get_from_cache, hb]
        rw [hstate]
        exact hinv

theorem cacheInv_runOps (k : String) (v : Int) (setTime ttl : ℚ)
    (ops : List Op) :
    ∀ s : Manager, CacheInv k v setTime ttl s →
      (∀ op ∈ ops, CacheOpSafe k op) →
      CacheInv k v setTime ttl (runOps s ops) := by
  induction ops with
  | nil => intro s h _; exact h
  | cons op ops ih =>
    intro s h hops
    exact ih (applyOp s op) (cacheInv_step k v setTime ttl s op h
      (hops op (by simp))) (fun o ho => hops o (by simp [ho]))

/-- Claim C2 as stated is false: store `1` under `"a"` with TTL 10 at
instant 100; the only intervening operations are a nonnegative time
advance and a `set_cache` for the different key `"a_ttl"` (no
intervening set for `"a"`); the later `get_from_cache "a"`, performed
exactly 10 seconds (= TTL) after the store, returns the stored value
instead of absent, because the intervening set overwrote the recorded
TTL of `"a"` with a timestamp. -/
theorem c2_counterexample :
    (∀ op ∈ [Op.advance 10, Op.cset "a_ttl" 0 5],
      (match op with
        | Op.cset k2 _ _ => k2 ≠ "a"
        | Op.advance dt => 0 ≤ dt
        | _ => False : Prop)) ∧
    (runOps (set_cache (initManager 45 (3 / 2) 100) "a" 1 10)
        [Op.advance 10, Op.cset "a_ttl" 0 5]).now -
      (set_cache (initManager 45 (3 / 2) 100) "a" 1 10).now = 10 ∧
    (get_from_cache (runOps (set_cache (initManager 45 (3 / 2) 100) "a" 1 10)
        [Op.advance 10, Op.cset "a_ttl" 0 5]) "a").1 = some 1 := by
  have happ : ("a" : String) ++ "_ttl" = "a_ttl" := rfl
  have happ2 : ("a_ttl" : String) ++ "_ttl" = "a_ttl_ttl" := rfl
  refine ⟨?_, ?_, ?_⟩
  · intro op hop
    rcases List.mem_cons.1 hop with h | h
    · subst h; norm_num
    · rcases List.mem_cons.1 h with h2 | h2
      · subst h2; simp
      · simp at h2
  · norm_num +decide [runOps, applyOp, set_cache, initManager, dictSet,
      dictGetD, dictGet, dictHas, happ, happ2]
  · norm_num +decide [runOps, applyOp, set_cache, initManager, get_from_cache,
      dictSet, dictGetD, dictGet, dictHas, happ, happ2]

/-- Claim C2 amended: provided the intervening cache operations avoid
not only key `k` but also the derived key `k ++ "_ttl"` and any key
whose derived key collides with `k`, a `get_from_cache k` strictly
before `ttl` seconds after `set_cache k v ttl` returns the stored
value, and at or after `ttl` seconds returns absent with the entry
physically removed. -/
theorem c2_cache_ttl (k : String) (v : Int) (ttl : ℚ) (s0 : Manager)
    (ops : List Op) (hops : ∀ op ∈ ops, CacheOpSafe k op) :
    ((runOps (set_cache s0 k v ttl) ops).now - s0.now < ttl →
      (get_from_cache (runOps (set_cache s0 k v ttl) ops) k).1 = some v) ∧
    (s0.now + ttl ≤ (runOps (set_cache s0 k v ttl) ops).now →
      (get_from_cache (runOps (set_cache s0 k v ttl) ops) k).1 = none ∧
      dictHas (get_from_cache (runOps (set_cache s0 k v ttl) ops) k).2.cache
        k = false) := by
  have hinv := cacheInv_runOps k v s0.now ttl ops (set_cache s0 k v ttl)
    (cacheInv_set s0 k v ttl) hops
  constructor
  · intro hlt
    rcases hinv with ⟨g1, g2, g3⟩ | ⟨g1, g2⟩
    · have hb := dictHas_of_dictGet_some _ _ _ g1
      have hgd1 : dictGetD (runOps (set_cache s0 k v ttl) ops).cache_ttl k 0 =
          s0.now := by rw [dictGetD, g2]; rfl
      have hgd2 : dictGetD (runOps (set_cache s0 k v ttl) ops).cache_ttl
          (k ++ "_ttl") 300 = ttl := by rw [dictGetD, g3]; rfl
      simp [get_from_cache, hb, hgd1, hgd2, hlt, g1]
    · linarith
  · intro hge
    rcases hinv with ⟨g1, g2, g3⟩ | ⟨g1, g2⟩
    · have hb := dictHas_of_dictGet_some _ _ _ g1
      have hgd1 : dictGetD (runOps (set_cache s0 k v ttl) ops).cache_ttl k 0 =
          s0.now := by rw [dictGetD, g2]; rfl
      have hgd2 : dictGetD (runOps (set_cache s0 k v ttl) ops).cache_ttl
          (k ++ "_ttl") 300 = ttl := by rw [dictGetD, g3]; rfl
      have hcond : ¬(runOps (set_cache s0 k v ttl) ops).now - s0.now < ttl :=
        not_lt.2 (by linarith)
      constructor
      · simp [get_from_cache, hb, hgd1, hgd2, hcond]
      · simp [get_from_cache, hb, hgd1, hgd2, hcond, dictHas_dictDel_self]
    · have hstate : (get_from_cache (runOps (set_cache s0 k v ttl) ops) k) =
          (none, runOps (set_cache s0 k v ttl) ops) := by
        simp [get_from_cache, g1]
      rw [hstate]
      exact ⟨rfl, g1⟩

/-- Witness for C2 at a concrete input. -/
theorem c2_cache_ttl_witness :
    (((runOps (set_cache (initManager 45 (3 / 2) 0) "K" 7 50)
        [Op.advance 20]).now - (initManager 45 (3 / 2) 0).now < 50 →
      (get_from_cache (runOps (set_cache (initManager 45 (3 / 2) 0) "K" 7 50)
        [Op.advance 20]) "K").1 = some 7) ∧
    ((initManager 45 (3 / 2) 0).now + 50 ≤
        (runOps (set_cache (initManager 45 (3 / 2) 0) "K" 7 50)
          [Op.advance 20]).now →
      (get_from_cache (runOps (set_cache (initManager 45 (3 / 2) 0) "K" 7 50)
        [Op.advance 20]) "K").1 = none ∧
      dictHas (get_from_cache (runOps (set_cache (initManager 45 (3 / 2) 0)
        "K" 7 50) [Op.advance 20]) "K").2.cache "K" = false)) :=
  c2_cache_ttl "K" 7 50 (initManager 45 (3 / 2) 0) [Op.advance 20]
    (by intro op hop; simp at hop; subst hop; norm_num [CacheOpSafe])

/-! ### Claim C1: the sliding-window rate limit -/

theorem windowCount_append (l1 l2 : List ℚ) (t : ℚ) :
    windowCount (l1 ++ l2) t = windowCount l1 t + windowCount l2 t :=
  List.countP_append _ _ _

theorem windowCount_le_length (l : List ℚ) (t : ℚ) :
    windowCount l t ≤ l.length :=
  List.countP_le_length _

theorem windowCount_eq_zero (l : List ℚ) (t : ℚ)
    (h : ∀ x ∈ l, 60 < t - x) : windowCount l t = 0 := by
  rw [windowCount, List.countP_eq_zero]
  intro x hx
  simp only [Bool.and_eq_true, decide_eq_true_eq, not_and]
  intro
  exact not_le.2 (h x hx)

theorem windowCount_cons (x : ℚ) (l : List ℚ) (t : ℚ) :
    windowCount (x :: l) t =
      windowCount l t + (if x ≤ t ∧ t - x ≤ 60 then 1 else 0) := by
  rw [windowCount, List.countP_cons, windowCount]
  by_cases h1 : x ≤ t <;> by_cases h2 : t - x ≤ 60 <;> simp [h1, h2]

theorem windowCount_singleton (x t : ℚ) :
    windowCount [x] t = if x ≤ t ∧ t - x ≤ 60 then 1 else 0 := by
  rw [show [x] = x :: ([] : List ℚ) from rfl, windowCount_cons]
  simp [windowCount]

/-- Transport of the invariant along a step that keeps the log and the
history and only moves time forward. -/
theorem RLInv_of_fields (s s2 : Manager) (h1 : s2.callLog = s.callLog)
    (h2 : s2.request_history = s.request_history) (h3 : s.now ≤ s2.now)
    (h4 : s2.max_requests_per_minute = s.max_requests_per_minute)
    (hinv : RLInv s) : RLInv s2 := by
  obtain ⟨⟨pre, hpre, hold⟩, hlen, hpast, hwin⟩ := hinv
  refine ⟨⟨pre, by rw [h1, h2]; exact hpre, fun x hx => ?_⟩,
    by rw [h2, h4]; exact hlen, fun x hx => ?_, fun t ht => ?_⟩
  · have := hold x hx
    linarith
  · rw [h1] at hx
    exact le_trans (hpast x hx) h3
  · rw [h1] at ht ⊢
    rw [h4]
    exact hwin t ht

theorem pruneHistory_split (now : ℚ) (h : List ℚ) :
    ∃ dr, h = dr ++ pruneHistory now h ∧ ∀ x ∈ dr, 60 < now - x := by
  induction h with
  | nil => exact ⟨[], rfl, by simp⟩
  | cons a h ih =>
    by_cases ha : now - a > 60
    · obtain ⟨dr, hdr, hold⟩ := ih
      refine ⟨a :: dr, ?_, ?_⟩
      · rw [pruneHistory, if_pos ha, List.cons_append, ← hdr]
      · intro x hx
        rcases List.mem_cons.1 hx with hx | hx
        · rw [hx]; exact ha
        · exact hold x hx
    · exact ⟨[], by rw [pruneHistory, if_neg ha, List.nil_append], by simp⟩

theorem pruneHistory_length_le (now : ℚ) (h : List ℚ) :
    (pruneHistory now h).length ≤ h.length := by
  obtain ⟨dr, hdr, -⟩ := pruneHistory_split now h
  conv_rhs => rw [hdr]
  rw [List.length_append]
  omega

/-- Transport of the invariant along the pruning performed by
`_can_make_request` and `get_status`. -/
theorem RLInv_prune (s s2 : Manager) (h1 : s2.callLog = s.callLog)
    (h2 : s2.request_history = pruneHistory s.now s.request_history)
    (h3 : s2.now = s.now)
    (h4 : s2.max_requests_per_minute = s.max_requests_per_minute)
    (hinv : RLInv s) : RLInv s2 := by
  obtain ⟨⟨pre, hpre, hold⟩, hlen, hpast, hwin⟩ := hinv
  obtain ⟨dr, hdr, hdrold⟩ := pruneHistory_split s.now s.request_history
  refine ⟨⟨pre ++ dr, ?_, fun x hx => ?_⟩, ?_, fun x hx => ?_, fun t ht => ?_⟩
  · rw [h1, h2, hpre]
    conv_lhs => rw [hdr]
    rw [List.append_assoc]
  · rw [h3]
    rcases List.mem_append.1 hx with hx | hx
    · exact hold x hx
    · exact hdrold x hx
  · rw [h2, h4]
    exact le_trans (pruneHistory_length_le _ _) hlen
  · rw [h1] at hx
    rw [h3]
    exact hpast x hx
  · rw [h1] at ht ⊢
    rw [h4]
    exact hwin t ht

theorem dequeAppend_of_lt (m : Nat) (l : List ℚ) (x : ℚ)
    (h : l.length < m) : dequeAppend m l x = l ++ [x] := by
  rw [dequeAppend]
  have : (l ++ [x]).length - m = 0 := by
    rw [List.length_append]
    simp
    omega
  rw [this]
  rfl

theorem dequeAppend_of_full (m : Nat) (h0 : ℚ) (tl : List ℚ) (x : ℚ)
    (h : (h0 :: tl).length = m) : dequeAppend m (h0 :: tl) x = tl ++ [x] := by
  rw [dequeAppend]
  have : (h0 :: tl ++ [x]).length - m = 1 := by
    simp at h ⊢
    omega
  rw [this]
  rfl

/-- Transport of the invariant along the recording of a successful
call: the current instant is appended to the bounded history deque and
to the ghost log.  The side condition is exactly what the admission
path in `process_batch` guarantees: either the pruned history was below
the ceiling, or it was full and the executor has slept past the oldest
entry's window. -/
theorem RLInv_append (s s2 : Manager)
    (h1 : s2.callLog = s.callLog ++ [s.now])
    (h2 : s2.request_history =
      dequeAppend s.max_requests_per_minute s.request_history s.now)
    (h3 : s2.now = s.now)
    (h4 : s2.max_requests_per_minute = s.max_requests_per_minute)
    (hcase : s.request_history.length < s.max_requests_per_minute ∨
      (s.request_history.length = s.max_requests_per_minute ∧
        ∃ h0 tl, s.request_history = h0 :: tl ∧ 60 < s.now - h0))
    (hinv : RLInv s) : RLInv s2 := by
  obtain ⟨⟨pre, hpre, hold⟩, hlen, hpast, hwin⟩ := hinv
  have hwin_new : windowCount (s.callLog ++ [s.now]) s.now ≤
      s.max_requests_per_minute := by
    rw [hpre, List.append_assoc, windowCount_append]
    have hz : windowCount pre s.now = 0 :=
      windowCount_eq_zero pre s.now hold
    rw [hz, Nat.zero_add, windowCount_append, windowCount_singleton,
      if_pos ⟨le_refl _, by norm_num⟩]
    rcases hcase with hc | ⟨-, h0, tl, heq, h60⟩
    · have := windowCount_le_length s.request_history s.now
      omega
    · rw [heq, windowCount_cons]
      have hh0 : ¬(h0 ≤ s.now ∧ s.now - h0 ≤ 60) := by
        rintro ⟨-, hle⟩
        linarith
      rw [if_neg hh0]
      have := windowCount_le_length tl s.now
      rw [heq] at hlen
      simp at hlen
      omega
  have hwin_all : ∀ t ∈ s.callLog ++ [s.now],
      windowCount (s.callLog ++ [s.now]) t ≤ s.max_requests_per_minute := by
    intro t ht
    by_cases htn : t = s.now
    · rw [htn]
      exact hwin_new
    · have htmem : t ∈ s.callLog := by
        rcases List.mem_append.1 ht with h | h
        · exact h
        · simp at h
          exact absurd h htn
      have htlt : t < s.now := lt_of_le_of_ne (hpast t htmem) htn
      rw [windowCount_append, windowCount_singleton,
        if_neg (by rintro ⟨hc, -⟩; exact absurd hc (not_le.2 htlt))]
      rw [Nat.add_zero]
      exact hwin t htmem
  rcases hcase with hc | ⟨hfull, h0, tl, heq, h60⟩
  · refine ⟨⟨pre, ?_, fun x hx => ?_⟩, ?_, fun x hx => ?_, fun t ht => ?_⟩
    · rw [h1, h2, dequeAppend_of_lt _ _ _ hc, hpre, List.append_assoc]
    · rw [h3]
      exact hold x hx
    · rw [h2, h4, dequeAppend_of_lt _ _ _ hc, List.length_append]
      simp
      omega
    · rw [h1] at hx
      rw [h3]
      rcases List.mem_append.1 hx with hx | hx
      · exact hpast x hx
      · simp at hx
        rw [hx]
    · rw [h1] at ht ⊢
      rw [h4]
      exact hwin_all t ht
  · have hfull2 : (h0 :: tl).length = s.max_requests_per_minute := by
      rw [← heq]
      exact hfull
    refine ⟨⟨pre ++ [h0], ?_, fun x hx => ?_⟩, ?_, fun x hx => ?_,
      fun t ht => ?_⟩
    · rw [h1, h2, heq, dequeAppend_of_full _ _ _ _ hfull2, hpre, heq]
      simp
    · rw [h3]
      rcases List.mem_append.1 hx with hx | hx
      · exact hold x hx
      · simp at hx
        rw [hx]
        exact h60
    · rw [h2, h4, heq, dequeAppend_of_full _ _ _ _ hfull2,
        List.length_append]
      simp at hfull2 ⊢
      omega
    · rw [h1] at hx
      rw [h3]
      rcases List.mem_append.1 hx with hx | hx
      · exact hpast x hx
      · simp at hx
        rw [hx]
    · rw [h1] at ht ⊢
      rw [h4]
      exact hwin_all t ht

theorem runRequest_RLInv (s : Manager) (r : Request)
    (hN : 1 ≤ s.max_requests_per_minute) (hinv : RLInv s)
    (hdur : 0 ≤ r.dur r.attempts) :
    RLInv (runRequest s r).1 ∧
    (runRequest s r).1.max_requests_per_minute =
      s.max_requests_per_minute := by
  have hP : RLInv
      { s with request_history := pruneHistory s.now s.request_history } :=
    RLInv_prune s _ rfl rfl rfl rfl hinv
  have hlenP : (pruneHistory s.now s.request_history).length ≤
      s.max_requests_per_minute := hP.2.1
  by_cases hcan : (pruneHistory s.now s.request_history).length <
      s.max_requests_per_minute
  · rcases hfr : r.func r.attempts with e | v
    · refine ⟨RLInv_of_fields
        { s with request_history := pruneHistory s.now s.request_history }
        (runRequest s r).1 ?_ ?_ ?_ ?_ hP, ?_⟩ <;>
        by_cases hre : r.attempts + 1 < 3 <;>
          simp [runRequest, can_make_request, hfr, hcan, hre] <;>
          linarith
    · refine ⟨RLInv_append
        { s with request_history := pruneHistory s.now s.request_history,
                 now := s.now + r.dur r.attempts }
        (runRequest s r).1 ?_ ?_ ?_ ?_ (Or.inl hcan)
        (RLInv_of_fields
          { s with request_history := pruneHistory s.now s.request_history }
          { s with request_history := pruneHistory s.now s.request_history,
                   now := s.now + r.dur r.attempts }
          rfl rfl (by simp [hdur]) rfl hP), ?_⟩ <;>
        rcases hck : r.cache_key with _ | ck <;>
          simp [runRequest, can_make_request, hfr, hcan, hck, set_cache]
  · have hfull : (pruneHistory s.now s.request_history).length =
        s.max_requests_per_minute := le_antisymm hlenP (not_lt.1 hcan)
    rcases hH : pruneHistory s.now s.request_history with _ | ⟨h0, tl⟩
    · exfalso
      rw [hH] at hfull
      simp at hfull
      omega
    · rw [hH] at hfull hcan hP hlenP
      have hcan2 : ¬tl.length + 1 < s.max_requests_per_minute := by
        simp only [List.length_cons] at hcan
        exact hcan
      have hw : 60 - (s.now - h0) + 1 / 10 ≤
          max 0 (60 - (s.now - h0) + 1 / 10) := le_max_right _ _
      have hw0 : (0 : ℚ) ≤ max 0 (60 - (s.now - h0) + 1 / 10) :=
        le_max_left _ _
      rcases hfr : r.func r.attempts with e | v
      · refine ⟨RLInv_of_fields
          { s with request_history := h0 :: tl } (runRequest s r).1
          ?_ ?_ ?_ ?_ hP, ?_⟩ <;>
          by_cases hre : r.attempts + 1 < 3 <;>
            simp [runRequest, can_make_request, calculate_wait_time, hfr,
              hcan, hcan2, hre, hH] <;>
            linarith
      · refine ⟨RLInv_append
          { s with request_history := h0 :: tl,
                   now := s.now + max 0 (60 - (s.now - h0) + 1 / 10) +
                     r.dur r.attempts }
          (runRequest s r).1 ?_ ?_ ?_ ?_
          (Or.inr ⟨hfull, h0, tl, rfl, by
            show 60 < s.now + max 0 (60 - (s.now - h0) + 1 / 10) +
              r.dur r.attempts - h0
            linarith⟩)
          (RLInv_of_fields { s with request_history := h0 :: tl }
            { s with request_history := h0 :: tl,
                     now := s.now + max 0 (60 - (s.now - h0) + 1 / 10) +
                       r.dur r.attempts }
            rfl rfl (by simp; linarith) rfl hP), ?_⟩ <;>
          rcases hck : r.cache_key with _ | ck <;>
            simp [runRequest, can_make_request, calculate_wait_time, hfr,
              hcan, hcan2, hck, hH, set_cache]

theorem runRequest_QInv (s : Manager) (r : Request) (hq : QInv s)
    (hr : ∀ n, 0 ≤ r.dur n) : QInv (runRequest s r).1 := by
  rcases hfr : r.func r.attempts with e | v
  · obtain ⟨h1, h2, h3, -⟩ := runRequest_err s r e hfr
    refine ⟨fun x hx => hq.1 x (h1 ▸ hx), fun x hx => hq.2.1 x (h2 ▸ hx), ?_⟩
    intro x hx
    rw [h3] at hx
    rcases List.mem_append.1 hx with hx | hx
    · split at hx
      · simp at hx
        rw [hx]
        exact hr
      · simp at hx
    · exact hq.2.2 x hx
  · obtain ⟨h1, h2, h3, -⟩ := runRequest_ok s r v hfr
    exact ⟨fun x hx => hq.1 x (h1 ▸ hx), fun x hx => hq.2.1 x (h2 ▸ hx),
      fun x hx => hq.2.2 x (h3 ▸ hx)⟩

theorem batchStep_RLInv (s : Manager)
    (res : List (String × Except String Int)) (p : Nat)
    (hN : 1 ≤ s.max_requests_per_minute) (hq : QInv s) (hinv : RLInv s) :
    batchStep s res p = none ∨
    ∃ s1 res1 p1, batchStep s res p = some (s1, res1, p1) ∧ RLInv s1 ∧
      QInv s1 ∧ s1.max_requests_per_minute = s.max_requests_per_minute := by
  unfold batchStep
  rcases hnext : get_next_request s with ⟨_ | r, sA⟩
  · exact Or.inl rfl
  · right
    obtain ⟨hmem, hh, hn, hl, -, hcall, hhist, hnow, hst, hmax⟩ :=
      get_next_request_some s r sA hnext
    have hrdur : ∀ n, 0 ≤ r.dur n := by
      rcases hmem with hm | hm | hm
      · exact hq.1 r hm
      · exact hq.2.1 r hm
      · exact hq.2.2 r hm
    have hqA : QInv sA :=
      ⟨fun x hx => hq.1 x (hh x hx), fun x hx => hq.2.1 x (hn x hx),
        fun x hx => hq.2.2 x (hl x hx)⟩
    have hinvA : RLInv sA :=
      RLInv_of_fields s sA hcall hhist (le_of_eq hnow.symm) hmax hinv
    have hNA : 1 ≤ sA.max_requests_per_minute := hmax ▸ hN
    rcases hck : r.cache_key with _ | ck
    · obtain ⟨ha, hb⟩ := runRequest_RLInv sA r hNA hinvA (hrdur r.attempts)
      exact ⟨(runRequest sA r).1, dictSet res r.id (runRequest sA r).2.1,
        if (runRequest sA r).2.2 then p + 1 else p,
        by simp only [hnext, hck], ha, runRequest_QInv sA r hqA hrdur,
        hb.trans hmax⟩
    · rcases hgc : get_from_cache sA ck with ⟨_ | v, s2⟩
      · obtain ⟨f1, f2, f3, -, f5, -, f7, f8, f9, -⟩ :=
          get_from_cache_frame sA ck
        rw [hgc] at f1 f2 f3 f5 f7 f8 f9
        have hq2 : QInv s2 :=
          ⟨fun x hx => hqA.1 x (f1 ▸ hx), fun x hx => hqA.2.1 x (f2 ▸ hx),
            fun x hx => hqA.2.2 x (f3 ▸ hx)⟩
        have hinv2 : RLInv s2 :=
          RLInv_of_fields sA s2 f5 f7 (le_of_eq f8.symm) f9 hinvA
        have hN2 : 1 ≤ s2.max_requests_per_minute := f9 ▸ hNA
        obtain ⟨ha, hb⟩ := runRequest_RLInv s2 r hN2 hinv2 (hrdur r.attempts)
        exact ⟨(runRequest s2 r).1, dictSet res r.id (runRequest s2 r).2.1,
          if (runRequest s2 r).2.2 then p + 1 else p,
          by simp only [hnext, hck, hgc], ha,
          runRequest_QInv s2 r hq2 hrdur, hb.trans (f9.trans hmax)⟩
      · obtain ⟨f1, f2, f3, -, f5, -, f7, f8, f9, -⟩ :=
          get_from_cache_frame sA ck
        rw [hgc] at f1 f2 f3 f5 f7 f8 f9
        refine ⟨s2, dictSet res r.id (Except.ok v), p + 1,
          by simp only [hnext, hck, hgc], ?_, ?_, f9.trans hmax⟩
        · exact RLInv_of_fields sA s2 f5 f7 (le_of_eq f8.symm) f9 hinvA
        · exact ⟨fun x hx => hqA.1 x (f1 ▸ hx),
            fun x hx => hqA.2.1 x (f2 ▸ hx),
            fun x hx => hqA.2.2 x (f3 ▸ hx)⟩

theorem batchLoop_RLInv (bs : Nat) (tout st : ℚ) (fuel : Nat) :
    ∀ (s : Manager) (res : List (String × Except String Int)) (p : Nat),
      1 ≤ s.max_requests_per_minute → QInv s → RLInv s →
      RLInv (batchLoop bs tout st fuel s res p).1 ∧
      QInv (batchLoop bs tout st fuel s res p).1 ∧
      (batchLoop bs tout st fuel s res p).1.max_requests_per_minute =
        s.max_requests_per_minute := by
  induction fuel with
  | zero => intro s res p _ hq hinv; exact ⟨hinv, hq, rfl⟩
  | succ fuel ih =>
    intro s res p hN hq hinv
    rw [batchLoop]
    split
    · rcases batchStep_RLInv s res p hN hq hinv with hnone |
        ⟨s1, res1, p1, he, h1, h2, h3⟩
      · rw [hnone]
        exact ⟨hinv, hq, rfl⟩
      · rw [he]
        obtain ⟨g1, g2, g3⟩ := ih s1 res1 p1 (h3 ▸ hN) h2 h1
        exact ⟨g1, g2, g3.trans h3⟩
    · exact ⟨hinv, hq, rfl⟩

theorem applyOp_RLInv (s : Manager) (op : Op)
    (hN : 1 ≤ s.max_requests_per_minute) (hq : QInv s) (hinv : RLInv s)
    (hop : OpWF op) :
    RLInv (applyOp s op) ∧ QInv (applyOp s op) ∧
      (applyOp s op).max_requests_per_minute = s.max_requests_per_minute := by
  cases op with
  | add id2 f d priority ck ttl =>
    have hd : ∀ n, 0 ≤ d n := hop
    refine ⟨?_, ?_, ?_⟩
    · refine RLInv_of_fields s _ ?_ ?_ ?_ ?_ hinv <;>
        cases priority <;>
        simp [applyOp, add_request, Manager.lane, Manager.setLane]
    · cases priority <;>
        refine ⟨?_, ?_, ?_⟩ <;>
        intro x hx <;>
        simp [applyOp, add_request, Manager.lane, Manager.setLane] at hx <;>
        first
        | (rcases hx with hx | hx
           · first
             | exact hq.1 x hx
             | exact hq.2.1 x hx
             | exact hq.2.2 x hx
           · rw [hx]; exact hd)
        | exact hq.1 x hx
        | exact hq.2.1 x hx
        | exact hq.2.2 x hx
    · cases priority <;>
        simp [applyOp, add_request, Manager.lane, Manager.setLane]
  | batch bs t => exact batchLoop_RLInv bs t s.now (batchFuel s) s [] 0 hN hq hinv
  | advance dt =>
    have hdt : (0 : ℚ) ≤ dt := hop
    refine ⟨RLInv_of_fields s _ rfl rfl ?_ rfl hinv, hq, rfl⟩
    show s.now ≤ s.now + dt
    linarith
  | cset k v ttl => exact ⟨RLInv_of_fields s _ rfl rfl (le_refl _) rfl hinv, hq, rfl⟩
  | cget k =>
    obtain ⟨f1, f2, f3, -, f5, -, f7, f8, f9, -⟩ := get_from_cache_frame s k
    refine ⟨RLInv_of_fields s _ f5 f7 (le_of_eq f8.symm) f9 hinv,
      ⟨fun x hx => hq.1 x (f1 ▸ hx), fun x hx => hq.2.1 x (f2 ▸ hx),
        fun x hx => hq.2.2 x (f3 ▸ hx)⟩, f9⟩
  | status =>
    exact ⟨RLInv_prune s _ rfl rfl rfl rfl hinv, hq, rfl⟩
  | optimize =>
    exact ⟨RLInv_of_fields s _ rfl rfl (le_refl _) rfl hinv,
      ⟨fun x hx => hq.1 x (mem_of_mem_dedupLane _ _ hx),
        fun x hx => hq.2.1 x (mem_of_mem_dedupLane _ _ hx),
        fun x hx => hq.2.2 x (mem_of_mem_dedupLane _ _ hx)⟩, rfl⟩

theorem runOps_RLInv (ops : List Op) :
    ∀ s : Manager, 1 ≤ s.max_requests_per_minute → QInv s → RLInv s →
      (∀ op ∈ ops, OpWF op) →
      RLInv (runOps s ops) ∧ QInv (runOps s ops) ∧
        (runOps s ops).max_requests_per_minute =
          s.max_requests_per_minute := by
  induction ops with
  | nil => intro s _ hq hinv _; exact ⟨hinv, hq, rfl⟩
  | cons op ops ih =>
    intro s hN hq hinv hops
    obtain ⟨h1, h2, h3⟩ := applyOp_RLInv s op hN hq hinv (hops op (by simp))
    obtain ⟨g1, g2, g3⟩ := ih (applyOp s op) (h3 ▸ hN) h2 h1
      (fun o ho => hops o (by simp [ho]))
    exact ⟨g1, g2, g3.trans h3⟩

theorem RLInv_init (N : Nat) (interval t0 : ℚ) :
    RLInv (initManager N interval t0) := by
  refine ⟨⟨[], rfl, by simp⟩, by simp [initManager], by simp [initManager],
    by simp [initManager]⟩

theorem QInv_init (N : Nat) (interval t0 : ℚ) :
    QInv (initManager N interval t0) := by
  refine ⟨?_, ?_, ?_⟩ <;> intro x hx <;> simp [initManager] at hx

/-- Claim C1 as stated is false: network calls are counted only after
a successful invocation, so failing operations are invoked without
limit.  With `max_requests_per_minute = 1` and a single always-failing
request, three actual network calls are issued at the same instant;
at that admitted instant the trailing 60-second window holds 3 issued
calls, exceeding the ceiling of 1. -/
theorem c1_counterexample :
    sFail1.max_requests_per_minute = 1 ∧
    (process_batch sFail1 10 30).1.invokeLog.map (fun q => q.2) =
      [0, 0, 0] ∧
    (0 : ℚ) ∈ (process_batch sFail1 10 30).1.invokeLog.map (fun q => q.2) ∧
    (process_batch sFail1 10 30).1.max_requests_per_minute <
      windowCount
        ((process_batch sFail1 10 30).1.invokeLog.map (fun q => q.2)) 0 := by
  refine ⟨rfl, ?_, ?_, ?_⟩ <;>
    norm_num +decide [sFail1, process_batch, batchLoop, batchStep, batchFuel,
      get_queue_size, add_request, initManager, Manager.lane, Manager.setLane,
      get_next_request, runRequest, can_make_request, pruneHistory,
      calculate_wait_time, get_from_cache, dictGet, dictGetD, dictHas,
      dictSet, dequeAppend, windowCount, List.countP_cons]

/-- Claim C1 amended: counting only successful network calls (the ones
the code records into CallHistory, mirrored by the ghost `callLog`),
and provided `maxRequestsPerMinute ≥ 1`, every trace of well-formed
external operations satisfies the window bound: at every instant at
which a call is recorded, the trailing 60-second window contains at
most `maxRequestsPerMinute` recorded calls, the new one included. -/
theorem c1_recorded_calls_bounded (N : Nat) (hN : 1 ≤ N) (interval t0 : ℚ)
    (ops : List Op) (hops : ∀ op ∈ ops, OpWF op) :
    ∀ t ∈ (runOps (initManager N interval t0) ops).callLog,
      windowCount (runOps (initManager N interval t0) ops).callLog t ≤ N := by
  obtain ⟨hinv, -, hmax⟩ := runOps_RLInv ops (initManager N interval t0)
    hN (QInv_init N interval t0) (RLInv_init N interval t0) hops
  intro t ht
  have := hinv.2.2.2 t ht
  rw [hmax] at this
  exact this

/-- Witness for C1 at a concrete input. -/
theorem c1_recorded_calls_bounded_witness :
    windowCount (runOps (initManager 1 (3 / 2) 0)
      [Op.add "a" (fun _ => Except.ok 1) (fun _ => 0) Priority.high none 300,
       Op.add "b" (fun _ => Except.ok 2) (fun _ => 0) Priority.high none 300,
       Op.batch 10 120]).callLog 0 ≤ 1 :=
  c1_recorded_calls_bounded 1 (le_refl 1) (3 / 2) 0
    [Op.add "a" (fun _ => Except.ok 1) (fun _ => 0) Priority.high none 300,
     Op.add "b" (fun _ => Except.ok 2) (fun _ => 0) Priority.high none 300,
     Op.batch 10 120]
    (by
      intro op hop
      rcases List.mem_cons.1 hop with h | h
      · subst h; intro n; exact le_refl 0
      rcases List.mem_cons.1 h with h2 | h2
      · subst h2; intro n; exact le_refl 0
      rcases List.mem_cons.1 h2 with h3 | h3
      · subst h3; trivial
      · simp at h3)
    0
    (by
      norm_num +decide [runOps, applyOp, process_batch, batchLoop, batchStep,
        batchFuel, get_queue_size, add_request, initManager, Manager.lane,
        Manager.setLane, get_next_request, runRequest, can_make_request,
        pruneHistory, calculate_wait_time, get_from_cache, dictGet, dictGetD,
        dictHas, dictSet, dequeAppend])
